import Mathlib

/-!
# cow: host classification, byte parsing helpers and configuration checks

A shallow embedding of `util.go` and `config.go`.

Go strings and `[]byte` values are sequences of bytes; a byte is a `Fin 256`.
Go `int` / `int64` values are integers kept in range by `wrap64`, `uint64`
values are naturals reduced modulo `2^64`.
-/

namespace Cow

/-! ## Bytes and strings -/

/-- A Go `byte`. -/
abbrev Byte := Fin 256

/-- A Go `string` or `[]byte`: a finite sequence of bytes. -/
abbrev Bytes := List Byte

/-- The bytes of an ASCII literal. -/
def bytesOf (s : String) : Bytes :=
  s.toList.map (fun c => Fin.ofNat c.toNat)

/-- Go slice expression `s[lo:hi]`. -/
def slice (s : Bytes) (lo hi : Nat) : Bytes :=
  (s.drop lo).take (hi - lo)

/-- Two's complement reduction of an integer to the `int64` range. -/
def wrap64 (x : Int) : Int :=
  (x + 2 ^ 63) % 2 ^ 64 - 2 ^ 63

/-! ## Go standard library functions used by the sources -/

/-- Go `strings.Split(s, sep)` for a one-byte separator: the parts of `s`
between the occurrences of `sep`; `k` occurrences give `k + 1` parts. -/
def stringsSplit (sep : Byte) : Bytes → List Bytes
  | [] => [[]]
  | c :: cs =>
    if c = sep then [] :: stringsSplit sep cs
    else
      match stringsSplit sep cs with
      | [] => [[c]]
      | p :: ps => (c :: p) :: ps

/-- Go `strings.LastIndex(s, sep)` for a one-byte separator: the index of the
last occurrence of `sep` in `s`, or `-1` when there is none. -/
def stringsLastIndex (sep : Byte) : Bytes → Int
  | [] => -1
  | c :: cs =>
    let r := stringsLastIndex sep cs
    if 0 ≤ r then r + 1 else if c = sep then 0 else -1

/-- Go `strings.Join(parts, sep)` for a one-byte separator. -/
def stringsJoin (sep : Byte) : List Bytes → Bytes
  | [] => []
  | [p] => p
  | p :: q :: ps => p ++ sep :: stringsJoin sep (q :: ps)

/-- `IsDigit` of `util.go`: the byte is one of `'0'` .. `'9'`. -/
def IsDigit (b : Byte) : Bool :=
  decide (48 ≤ b.val) && decide (b.val ≤ 57)

/-- The value of a run of decimal digits, most significant first; `none` as
soon as a byte is not a decimal digit. -/
def decimalValue : Bytes → Nat → Option Nat
  | [], acc => some acc
  | c :: cs, acc =>
    if IsDigit c then decimalValue cs (acc * 10 + (c.val - 48)) else none

/-- Go `strconv.Atoi(s)`: an optional `+` or `-` sign followed by at least one
decimal digit, the value being in the 64-bit `int` range; `none` stands for a
returned error. -/
def strconvAtoi (s : Bytes) : Option Int :=
  let parse (neg : Bool) (ds : Bytes) : Option Int :=
    match ds with
    | [] => none
    | _ :: _ =>
      match decimalValue ds 0 with
      | none => none
      | some v =>
        let r : Int := if neg then -(v : Int) else (v : Int)
        if -(2 : Int) ^ 63 ≤ r ∧ r < (2 : Int) ^ 63 then some r else none
  match s with
  | [] => none
  | c :: cs =>
    if c = 43 then parse false cs
    else if c = 45 then parse true cs
    else parse false (c :: cs)

/-! ## util.go: host classification -/

/-- The loop of `hostIsIP` over the parts. -/
def hostIsIP.loop : List Bytes → Bool
  | [] => true
  | i :: rest =>
    if i.length = 0 ∨ i.length > 3 then false
    else
      match strconvAtoi i with
      | none => false
      | some n => if n < 0 ∨ n > 255 then false else hostIsIP.loop rest

/-- `hostIsIP` of `util.go`. -/
def hostIsIP (host : Bytes) : Bool :=
  let parts := stringsSplit 46 host
  if parts.length ≠ 4 then false else hostIsIP.loop parts

/-- The map `topLevelDomain` of `util.go`, as its membership test. -/
def topLevelDomain (part : Bytes) : Bool :=
  decide (part ∈ [bytesOf "ac", bytesOf "co", bytesOf "org", bytesOf "com",
    bytesOf "net", bytesOf "edu"])

/-- `trimLastDot` of `util.go`. -/
def trimLastDot (s : Bytes) : Bytes :=
  if s.length > 0 ∧ s.getLast? = some 46 then s.take (s.length - 1) else s

/-- `host2Domain` of `util.go`. The function `splitHostPort` is defined in
another source file and is taken as a parameter. -/
def host2Domain (splitHostPort : Bytes → Bytes × Bytes) (host : Bytes) : Bytes :=
  let host := (splitHostPort host).1
  if hostIsIP host then []
  else
    let host := trimLastDot host
    let lastDot := stringsLastIndex 46 host
    if lastDot = -1 then []
    else
      let dot2ndLast := stringsLastIndex 46 (slice host 0 lastDot.toNat)
      if dot2ndLast = -1 then host
      else
        let part := slice host (dot2ndLast + 1).toNat lastDot.toNat
        if topLevelDomain part then
          let dot3rdLast := stringsLastIndex 46 (slice host 0 dot2ndLast.toNat)
          if dot3rdLast = -1 then host
          else host.drop (dot3rdLast + 1).toNat
        else host.drop (dot2ndLast + 1).toNat

/-- `stringHash` of `util.go`, the loop from accumulator `hash`; `uint64`
arithmetic is reduction modulo `2^64`. -/
def stringHash.loop : Bytes → Nat → Nat
  | [], hash => hash
  | c :: cs, hash =>
    stringHash.loop cs ((((hash <<< 5) % 2 ^ 64 + 1) % 2 ^ 64 + c.val) % 2 ^ 64)

/-- `stringHash` of `util.go`. -/
def stringHash (s : Bytes) : Nat :=
  stringHash.loop s 5381

/-- The djb2 hash as the documentation describes it: start from 5381 and
replace the accumulator `h` by `h * 33 + c` for each byte, modulo `2^64`. -/
def djb2 (s : Bytes) : Nat :=
  s.foldl (fun h c => (h * 33 + c.val) % 2 ^ 64) 5381

/-- The dotted-quad IPv4 literals as the documentation describes them: exactly
four parts separated by `.`, each part made of one to three decimal digits and
denoting a value between 0 and 255. -/
def isDottedQuad (host : Bytes) : Bool :=
  let parts := stringsSplit 46 host
  decide (parts.length = 4) &&
    parts.all (fun p =>
      decide (1 ≤ p.length) && decide (p.length ≤ 3) && p.all IsDigit &&
        match decimalValue p 0 with
        | some v => decide (v ≤ 255)
        | none => false)

/-! ## util.go: byte parsing helpers -/

/-- The table `spaceTbl` of `util.go`: true at tab, line feed, carriage return
and space, false at every other byte. -/
def spaceTbl (b : Byte) : Bool :=
  b = 9 || b = 10 || b = 13 || b = 32

/-- `IsSpace` of `util.go`. -/
def IsSpace (b : Byte) : Bool :=
  spaceTbl b

/-- The first loop of `TrimSpace`: the arguments are `s[st:]` and `st`. -/
def TrimSpace.fwd : Bytes → Nat → Nat
  | [], st => st
  | c :: cs, st => if IsSpace c then TrimSpace.fwd cs (st + 1) else st

/-- The second loop of `TrimSpace`: the arguments are `s[:end+1]` reversed and
`end`. -/
def TrimSpace.bwd : Bytes → Int → Int
  | [], e => e
  | c :: cs, e => if IsSpace c then TrimSpace.bwd cs (e - 1) else e

/-- `TrimSpace` of `util.go`. -/
def TrimSpace (s : Bytes) : Bytes :=
  if s.length = 0 then s
  else
    let st := TrimSpace.fwd s 0
    if st = s.length then s.take 0
    else
      let e := TrimSpace.bwd s.reverse ((s.length : Int) - 1)
      slice s st (e + 1).toNat

/-- The result of a Go function that returns a `[][]byte`: the run ended in a
runtime panic, or it returned the nil slice, or it returned a slice. -/
inductive FieldsResult where
  | panicked
  | nil
  | fields (fs : List Bytes)
  deriving DecidableEq, Repr

/-- The Go assignment `res[na] = x`; `none` is the index-out-of-range panic. -/
def setSlot (res : List Bytes) (na : Int) (x : Bytes) : Option (List Bytes) :=
  if 0 ≤ na ∧ na < res.length then some (res.set na.toNat x) else none

/-- The loop of `FieldsN`: the arguments are `s[i:]`, `i`, `na`, `fieldStart`
and `res`; the result is the triple `(na, fieldStart, res)` when the loop is
left, `none` when an assignment panics. -/
def FieldsN.loop (s : Bytes) (n : Int) :
    Bytes → Nat → Int → Int → List Bytes → Option (Int × Int × List Bytes)
  | [], _, na, fieldStart, res => some (na, fieldStart, res)
  | c :: rest, i, na, fieldStart, res =>
    let issep : Bool := c = 32 || c = 9
    let fieldStart : Int := if fieldStart < 0 ∧ issep = false then (i : Int) else fieldStart
    if fieldStart ≥ 0 ∧ issep = true then
      if na = n - 1 then some (na, fieldStart, res)
      else
        match setSlot res na (slice s fieldStart.toNat i) with
        | none => none
        | some res => FieldsN.loop s n rest (i + 1) (na + 1) (-1) res
    else FieldsN.loop s n rest (i + 1) na fieldStart res

/-- `FieldsN` of `util.go`. -/
def FieldsN (s : Bytes) (n : Int) : FieldsResult :=
  if n ≤ 0 then FieldsResult.nil
  else
    let res : List Bytes := List.replicate n.toNat []
    match FieldsN.loop s n s 0 0 (-1) res with
    | none => FieldsResult.panicked
    | some (na, fieldStart, res) =>
      if fieldStart ≥ 0 then
        let t := TrimSpace (s.drop fieldStart.toNat)
        match setSlot res na t with
        | none => FieldsResult.panicked
        | some res =>
          let na := if t.length ≠ 0 then na + 1 else na
          FieldsResult.fields (res.take na.toNat)
      else FieldsResult.fields (res.take na.toNat)

/-- The table `digitTbl` of `util.go`, a `[256]int8`: the literal lists the
entries of the bytes 0 to 127, the entries of the bytes 128 to 255 are left at
the zero value. -/
def digitTbl : List Int :=
  [ -1, -1, -1, -1, -1, -1, -1, -1, -1, -1, -1, -1, -1, -1, -1, -1,
    -1, -1, -1, -1, -1, -1, -1, -1, -1, -1, -1, -1, -1, -1, -1, -1,
    -1, -1, -1, -1, -1, -1, -1, -1, -1, -1, -1, -1, -1, -1, -1, -1,
    0, 1, 2, 3, 4, 5, 6, 7, 8, 9, -1, -1, -1, -1, -1, -1,
    -1, 10, 11, 12, 13, 14, 15, -1, -1, -1, -1, -1, -1, -1, -1, -1,
    -1, -1, -1, -1, -1, -1, -1, -1, -1, -1, -1, -1, -1, -1, -1, -1,
    -1, 10, 11, 12, 13, 14, 15, -1, -1, -1, -1, -1, -1, -1, -1, -1,
    -1, -1, -1, -1, -1, -1, -1, -1, -1, -1, -1, -1, -1, -1, -1, -1 ]
  ++ List.replicate 128 0

/-- The errors `ParseIntFromBytes` returns. -/
inductive ParseIntError where
  | invalidBase (base : Int)
  | emptyString
  | invalidNumber (b : Bytes)
  | invalidBaseNumber (base : Int) (b : Bytes)
  deriving DecidableEq, Repr

/-- The loop of `ParseIntFromBytes` over the bytes that are left, from the
accumulator `n`; `b` is the whole digit string, quoted in the errors. -/
def ParseIntFromBytes.loop (base : Int) (b : Bytes) :
    Bytes → Int → Int × Option ParseIntError
  | [], n => (n, none)
  | d :: ds, n =>
    let v := digitTbl.getD d.val 0
    if v = -1 then (0, some (ParseIntError.invalidNumber b))
    else if v ≥ base then (0, some (ParseIntError.invalidBaseNumber base b))
    else ParseIntFromBytes.loop base b ds (wrap64 (wrap64 (n * base) + v))

/-- `ParseIntFromBytes` of `util.go`: the pair of the returned `n` and `err`,
`none` being the nil error. -/
def ParseIntFromBytes (b : Bytes) (base : Int) : Int × Option ParseIntError :=
  if base ≠ 10 ∧ base ≠ 16 then (0, some (ParseIntError.invalidBase base))
  else if b.length = 0 then (0, some ParseIntError.emptyString)
  else
    let sb : Bytes × Bool :=
      if b.head? = some 43 then (b.drop 1, false)
      else if b.head? = some 45 then (b.drop 1, true)
      else (b, false)
    match ParseIntFromBytes.loop base sb.1 sb.1 0 with
    | (n, some err) => (n, some err)
    | (n, none) => (if sb.2 then wrap64 (-n) else n, none)

/-! ## config.go -/

/-- The type `LoadBalanceMode` of `config.go`. -/
inductive LoadBalanceMode where
  | loadBalanceBackup
  | loadBalanceHash
  deriving DecidableEq, Repr

/-- The functions registered in `parentProxyCreator`: the socks creator, the
http creator, and the shadowsocks creator built for slot index `i`. -/
inductive ProxyCreator where
  | createctSocksConnection
  | createHttpProxyConnection
  | createShadowSocksConnecter (i : Nat)
  deriving DecidableEq, Repr

/-- The fields of `Config` that the modelled functions read or write. A slice
that may be nil is an `Option`, `none` being nil. -/
structure Config where
  ListenAddr : Option (List Bytes)
  LoadBalance : LoadBalanceMode
  SocksParent : Bytes
  HttpParent : Bytes
  hasHttpParent : Bool
  ShadowSocks : List Bytes
  ShadowPasswd : List Bytes
  ShadowMethod : List Bytes
  AddrInPAC : Option (List Bytes)
  deriving DecidableEq, Repr

/-- The global variables the modelled functions read or write. -/
structure State where
  config : Config
  parentProxyCreator : List ProxyCreator
  parentProxyFailCnt : List Int
  deriving DecidableEq, Repr

/-- The state at program start: every variable holds its zero value. -/
def State.init : State :=
  { config :=
      { ListenAddr := none, LoadBalance := LoadBalanceMode.loadBalanceBackup,
        SocksParent := [], HttpParent := [], hasHttpParent := false,
        ShadowSocks := [], ShadowPasswd := [], ShadowMethod := [], AddrInPAC := none },
    parentProxyCreator := [],
    parentProxyFailCnt := [] }

/-- The constant `defaultListenAddr` of `config.go`. -/
def defaultListenAddr : Bytes := bytesOf "127.0.0.1:7777"

/-- Modelled from the spec: `Fatal` and `Fatalf` are defined in another source
file; a configuration inconsistency is fatal, the process ends with the
message and the caller is never returned to. A run is `Except.error msg` when
it ended in `Fatal`, and `Except.ok st` when it returned in state `st`. -/
abbrev Run := Except String State

/-- `hasPort` of `config.go`, over the `splitHostPort` of another source
file. -/
def hasPort (splitHostPort : Bytes → Bytes × Bytes) (val : Bytes) : Bool :=
  let port := (splitHostPort val).2
  if port = [] then false else true

/-- `ParseSocksParent` of `config.go`. -/
def ParseSocksParent (splitHostPort : Bytes → Bytes × Bytes) (val : Bytes) (st : State) : Run :=
  let st := { st with config := { st.config with SocksParent := val } }
  if ¬ hasPort splitHostPort st.config.SocksParent then
    Except.error "parent socks server must have port specified"
  else
    Except.ok { st with
      parentProxyCreator := st.parentProxyCreator ++ [ProxyCreator.createctSocksConnection] }

/-- `ParseHttpParent` of `config.go`. -/
def ParseHttpParent (splitHostPort : Bytes → Bytes × Bytes) (val : Bytes) (st : State) : Run :=
  let st := { st with config := { st.config with HttpParent := val } }
  if ¬ hasPort splitHostPort st.config.HttpParent then
    Except.error "parent http server must have port specified"
  else
    let st := { st with
      parentProxyCreator := st.parentProxyCreator ++ [ProxyCreator.createHttpProxyConnection] }
    Except.ok { st with config := { st.config with hasHttpParent := true } }

/-- `ParseLoadBalance` of `config.go`. -/
def ParseLoadBalance (val : Bytes) (st : State) : Run :=
  if val = bytesOf "backup" then
    Except.ok { st with config := { st.config with
      LoadBalance := LoadBalanceMode.loadBalanceBackup } }
  else if val = bytesOf "hash" then
    Except.ok { st with config := { st.config with
      LoadBalance := LoadBalanceMode.loadBalanceHash } }
  else Except.error "invalid loadBalance mode: %s\n"

/-- `ParseShadowSocks` of `config.go`. -/
def ParseShadowSocks (splitHostPort : Bytes → Bytes × Bytes) (val : Bytes) (st : State) : Run :=
  if ¬ hasPort splitHostPort val then
    Except.error "shadowsocks server must have port specified"
  else
    let st := { st with
      parentProxyCreator := st.parentProxyCreator ++
        [ProxyCreator.createShadowSocksConnecter st.config.ShadowSocks.length] }
    Except.ok { st with config := { st.config with
      ShadowSocks := st.config.ShadowSocks ++ [val] } }

/-- `ParseShadowPasswd` of `config.go`. -/
def ParseShadowPasswd (val : Bytes) (st : State) : Run :=
  if st.config.ShadowPasswd.length + 1 > st.config.ShadowSocks.length then
    Except.error "must specify shadowSocks before corresponding shadowPasswd"
  else if st.config.ShadowPasswd.length + 1 < st.config.ShadowSocks.length then
    Except.error "must specify shadowPasswd for every shadowSocks"
  else
    Except.ok { st with config := { st.config with
      ShadowPasswd := st.config.ShadowPasswd ++ [val] } }

/-- The loop of `ParseShadowMethod`, `for len(ShadowMethod)+1 < len(ShadowSocks)`,
over the list `ShadowMethod`, with `socks` the length of `ShadowSocks`. The
first argument bounds the number of iterations; `ParseShadowMethod` passes
`socks`, which the loop never uses up (`ParseShadowMethod_loop_exit`). -/
def ParseShadowMethod.loop (socks : Nat) : Nat → List Bytes → List Bytes
  | 0, m => m
  | fuel + 1, m =>
    if m.length + 1 < socks then ParseShadowMethod.loop socks fuel (m ++ [[]]) else m

/-- `ParseShadowMethod` of `config.go`. -/
def ParseShadowMethod (val : Bytes) (st : State) : Run :=
  if st.config.ShadowMethod.length + 1 > st.config.ShadowSocks.length then
    Except.error "must specify shadowSocks before corresponding shadowMethod"
  else
    let m := ParseShadowMethod.loop st.config.ShadowSocks.length
      st.config.ShadowSocks.length st.config.ShadowMethod
    Except.ok { st with config := { st.config with ShadowMethod := m ++ [val] } }

/-- The loop of `checkConfig`, `for len(ShadowMethod) < len(ShadowSocks)`, over
the list `ShadowMethod`, with `socks` the length of `ShadowSocks`. The first
argument bounds the number of iterations; `checkConfig` passes `socks`, which
the loop never uses up (`checkConfig_loop_exit`). -/
def checkConfig.loop (socks : Nat) : Nat → List Bytes → List Bytes
  | 0, m => m
  | fuel + 1, m =>
    if m.length < socks then checkConfig.loop socks fuel (m ++ [[]]) else m

/-- `checkConfig` of `config.go`. -/
def checkConfig (st : State) : Run :=
  if st.config.ShadowSocks.length ≠ st.config.ShadowPasswd.length then
    Except.error "number of shadowsocks server and password does not match"
  else
    let st := { st with config := { st.config with
      ShadowMethod := checkConfig.loop st.config.ShadowSocks.length
        st.config.ShadowSocks.length st.config.ShadowMethod } }
    let st :=
      if st.config.ListenAddr = none then
        { st with config := { st.config with ListenAddr := some [defaultListenAddr] } }
      else st
    let listenLen : Nat := (st.config.ListenAddr.getD []).length
    let checked : Run :=
      match st.config.AddrInPAC with
      | some pac =>
        if pac.length ≠ listenLen then
          Except.error "Number of listen addresses and addr in PAC not match."
        else Except.ok st
      | none =>
        Except.ok { st with config := { st.config with
          AddrInPAC := some (List.replicate listenLen []) } }
    match checked with
    | Except.error msg => Except.error msg
    | Except.ok st =>
      let st :=
        if st.parentProxyCreator.length ≤ 1 then
          { st with config := { st.config with
            LoadBalance := LoadBalanceMode.loadBalanceBackup } }
        else st
      Except.ok { st with
        parentProxyFailCnt := List.replicate st.parentProxyCreator.length 0 }

/-- A call of one of the three shadowsocks option parsers. -/
inductive ShadowCall where
  | socks (val : Bytes)
  | passwd (val : Bytes)
  | method (val : Bytes)
  deriving DecidableEq, Repr

/-- Run one call of a shadowsocks option parser. -/
def ShadowCall.run (splitHostPort : Bytes → Bytes × Bytes) : ShadowCall → State → Run
  | ShadowCall.socks val, st => ParseShadowSocks splitHostPort val st
  | ShadowCall.passwd val, st => ParseShadowPasswd val st
  | ShadowCall.method val, st => ParseShadowMethod val st

/-- Run a sequence of calls in order; the run is fatal as soon as a call is. -/
def runCalls (splitHostPort : Bytes → Bytes × Bytes) : List ShadowCall → State → Run
  | [], st => Except.ok st
  | c :: cs, st =>
    match c.run splitHostPort st with
    | Except.error msg => Except.error msg
    | Except.ok st => runCalls splitHostPort cs st

/-- The methods given by a sequence of calls, one entry per server in order:
a `socks` call opens an entry with no method, a `method` call gives its value
to the most recent server. -/
def givenMethods : List ShadowCall → List (Option Bytes) → List (Option Bytes)
  | [], acc => acc
  | ShadowCall.socks _ :: cs, acc => givenMethods cs (acc ++ [none])
  | ShadowCall.passwd _ :: cs, acc => givenMethods cs acc
  | ShadowCall.method val :: cs, acc => givenMethods cs (acc.dropLast ++ [some val])

/-- A state with one shadowsocks server and no password. -/
def stateOneServer : State :=
  { State.init with config := { State.init.config with ShadowSocks := [bytesOf "a:1"] } }

/-- A state with two registered parents and hash load balancing. -/
def stateTwoParents : State :=
  { config := { State.init.config with LoadBalance := LoadBalanceMode.loadBalanceHash },
    parentProxyCreator :=
      [ProxyCreator.createctSocksConnection, ProxyCreator.createHttpProxyConnection],
    parentProxyFailCnt := [] }

/-- The state `checkConfig` returns in from `stateTwoParents`. -/
def stateTwoParentsChecked : State :=
  { config := { stateTwoParents.config with
      ListenAddr := some [defaultListenAddr], AddrInPAC := some [[]] },
    parentProxyCreator := stateTwoParents.parentProxyCreator,
    parentProxyFailCnt := [0, 0] }

/-- A `splitHostPort` that finds the port `80` on every host. -/
def splitHostPortAlways : Bytes → Bytes × Bytes :=
  fun h => (h, bytesOf "80")

/-- Two servers with their passwords, and a method for the second one. -/
def callsTwoServers : List ShadowCall :=
  [ShadowCall.socks (bytesOf "a:1"), ShadowCall.passwd (bytesOf "p"),
   ShadowCall.socks (bytesOf "b:1"), ShadowCall.passwd (bytesOf "q"),
   ShadowCall.method (bytesOf "m")]

/-- The state after `callsTwoServers` from the initial state. -/
def stateTwoServers : State :=
  { config := { State.init.config with
      ShadowSocks := [bytesOf "a:1", bytesOf "b:1"],
      ShadowPasswd := [bytesOf "p", bytesOf "q"],
      ShadowMethod := [[], bytesOf "m"] },
    parentProxyCreator :=
      [ProxyCreator.createShadowSocksConnecter 0, ProxyCreator.createShadowSocksConnecter 1],
    parentProxyFailCnt := [] }

/-- The state `checkConfig` returns in from `stateTwoServers`. -/
def stateTwoServersChecked : State :=
  { config := { stateTwoServers.config with
      ListenAddr := some [defaultListenAddr], AddrInPAC := some [[]] },
    parentProxyCreator := stateTwoServers.parentProxyCreator,
    parentProxyFailCnt := [0, 0] }

/-! ## Rendering of integers -/

/-- The ASCII digit of the digit value `d` below 16: `0`-`9`, then `a`-`f`, or
`A`-`F` when `upper` is set. -/
def digitByte (upper : Bool) (d : Nat) : Byte :=
  if d < 10 then Fin.ofNat (48 + d)
  else if upper then Fin.ofNat (65 + (d - 10))
  else Fin.ofNat (97 + (d - 10))

/-- The digit values of `n` in base `base`, most significant first; zero has
the one digit 0. -/
def natDigits (base n : Nat) : List Nat :=
  if n = 0 then [0] else (Nat.digits base n).reverse

/-- The rendering of the integer `v` in base `base`: a leading `-` for a
negative value, then the digits of its absolute value, without prefix. -/
def renderInt (base : Nat) (upper : Bool) (v : Int) : Bytes :=
  if v < 0 then 45 :: (natDigits base v.natAbs).map (digitByte upper)
  else (natDigits base v.natAbs).map (digitByte upper)

/-- The invariant of the loop of `FieldsN`: `res` keeps its `n` slots, `na`
stays between 0 and `n - 1`, and the first `na` slots hold non-empty fields. -/
def FieldsInv (n : Int) (na : Int) (res : List Bytes) : Prop :=
  res.length = n.toNat ∧ 0 ≤ na ∧ na ≤ n - 1 ∧ ∀ f ∈ res.take na.toNat, f ≠ []

/-! ## util.go: `NewNbitIPv4Mask` -/

/-- The loop of `NewNbitIPv4Mask` over the values of `id` that are left. The
byte expression `^byte(1<<(uint8(8-n)) - 1)` is computed in 8 bits: the shift
count is `8 - n` reduced to a `uint8`, the shift and the subtraction wrap
modulo 256, and the complement of `x` is `255 - x`. -/
def NewNbitIPv4Mask.loop : List Nat → Int → List Byte → List Byte
  | [], _, mask => mask
  | id :: ids, n, mask =>
    if n ≥ 8 then NewNbitIPv4Mask.loop ids (n - 8) (mask.set id 255)
    else
      let shift : Nat := ((8 - n) % 256).toNat
      let x : Nat := ((1 <<< shift) % 256 + 255) % 256
      mask.set id (Fin.ofNat (255 - x))

/-- `NewNbitIPv4Mask` of `util.go`; `none` is the panic. -/
def NewNbitIPv4Mask (n : Int) : Option (List Byte) :=
  if n > 32 then none
  else some (NewNbitIPv4Mask.loop [0, 1, 2, 3] n [0, 0, 0, 0])

/-- A mask read as a big-endian number. -/
def bigEndian (mask : List Byte) : Nat :=
  mask.foldl (fun acc b => acc * 256 + b.val) 0

/-! ## config.go: sequences of calls -/

/-- A call of one of the modelled functions of `config.go`. -/
inductive ConfigCall where
  | socksParent (val : Bytes)
  | httpParent (val : Bytes)
  | loadBalance (val : Bytes)
  | shadowSocks (val : Bytes)
  | shadowPasswd (val : Bytes)
  | shadowMethod (val : Bytes)
  | check
  deriving DecidableEq, Repr

/-- Run one call. -/
def ConfigCall.run (splitHostPort : Bytes → Bytes × Bytes) : ConfigCall → State → Run
  | ConfigCall.socksParent val, st => ParseSocksParent splitHostPort val st
  | ConfigCall.httpParent val, st => ParseHttpParent splitHostPort val st
  | ConfigCall.loadBalance val, st => ParseLoadBalance val st
  | ConfigCall.shadowSocks val, st => ParseShadowSocks splitHostPort val st
  | ConfigCall.shadowPasswd val, st => ParseShadowPasswd val st
  | ConfigCall.shadowMethod val, st => ParseShadowMethod val st
  | ConfigCall.check, st => checkConfig st

/-- Run a sequence of calls in order; the run is fatal as soon as a call is. -/
def runConfig (splitHostPort : Bytes → Bytes × Bytes) : List ConfigCall → State → Run
  | [], st => Except.ok st
  | c :: cs, st =>
    match c.run splitHostPort st with
    | Except.error msg => Except.error msg
    | Except.ok st => runConfig splitHostPort cs st

/-- The slot indices of the shadowsocks creators of a creator list, in the
order of registration. -/
def shadowIndices : List ProxyCreator → List Nat
  | [] => []
  | ProxyCreator.createShadowSocksConnecter i :: cs => i :: shadowIndices cs
  | _ :: cs => shadowIndices cs

/-- One server with its password, waiting for a method. -/
def stateServerWithPasswd : State :=
  { State.init with
    config := { State.init.config with
      ShadowSocks := [bytesOf "a:1"], ShadowPasswd := [bytesOf "p"] },
    parentProxyCreator := [ProxyCreator.createShadowSocksConnecter 0] }

/-- A socks parent, then two shadowsocks servers around an http parent. -/
def callsMixedParents : List ConfigCall :=
  [ConfigCall.socksParent (bytesOf "s:1"), ConfigCall.shadowSocks (bytesOf "a:1"),
   ConfigCall.shadowPasswd (bytesOf "p"), ConfigCall.httpParent (bytesOf "h:1"),
   ConfigCall.shadowSocks (bytesOf "b:1")]

/-- The state after `callsMixedParents` from the initial state. -/
def stateMixedParents : State :=
  { config := { State.init.config with
      SocksParent := bytesOf "s:1", HttpParent := bytesOf "h:1", hasHttpParent := true,
      ShadowSocks := [bytesOf "a:1", bytesOf "b:1"], ShadowPasswd := [bytesOf "p"] },
    parentProxyCreator :=
      [ProxyCreator.createctSocksConnection, ProxyCreator.createShadowSocksConnecter 0,
       ProxyCreator.createHttpProxyConnection, ProxyCreator.createShadowSocksConnecter 1],
    parentProxyFailCnt := [] }

/-! ## Tokens of a byte sequence -/

/-- The separators of `FieldsN`: space and tab. -/
def isSep (b : Byte) : Bool :=
  b = 32 || b = 9

/-- The tokens of `cur ++ rest`, where `cur` holds the bytes of the token
under way (none when `cur` is empty): the maximal runs of bytes other than
space and tab, in order of appearance. -/
def tokensFrom : Bytes → Bytes → List Bytes
  | [], cur => if cur = [] then [] else [cur]
  | c :: rest, cur =>
    if isSep c then
      if cur = [] then tokensFrom rest [] else cur :: tokensFrom rest []
    else tokensFrom rest (cur ++ [c])

/-- The tokens of `s`: its maximal runs of bytes other than space and tab. -/
def tokens (s : Bytes) : List Bytes :=
  tokensFrom s []

/-- The part of `s` from the first byte of its token number `k`, counted from
0, to the end of `s`: skip the separators in front, and `k` times a token and
the separators after it. -/
def dropTokens : Nat → Bytes → Bytes
  | 0, s => s.dropWhile isSep
  | k + 1, s => dropTokens k ((s.dropWhile isSep).dropWhile (fun b => !isSep b))

/-- Remove the trailing spaces and tabs. -/
def trimRight (s : Bytes) : Bytes :=
  s.rdropWhile isSep

/-- The end of `FieldsN` after the loop, from the values of `na`, `fieldStart`
and `res` the loop was left with. -/
def fieldsFinish (s : Bytes) (na fieldStart : Int) (res : List Bytes) : FieldsResult :=
  if fieldStart ≥ 0 then
    let t := TrimSpace (s.drop fieldStart.toNat)
    match setSlot res na t with
    | none => FieldsResult.panicked
    | some res =>
      let na := if t.length ≠ 0 then na + 1 else na
      FieldsResult.fields (res.take na.toNat)
  else FieldsResult.fields (res.take na.toNat)

/-- The field made of what is left in `t`: `TrimSpace t`, unless it is empty. -/
def lastField (t : Bytes) : List Bytes :=
  if (TrimSpace t).length ≠ 0 then [TrimSpace t] else []

/-- The fields `FieldsN` adds from a state of its loop, in terms of lists:
`rest` is `s[i:]`, `cur` is the field under way (`s[fieldStart:i]`, empty when
`fieldStart < 0`), and `room` is `n - 1 - na`. -/
def fieldsSpec : Nat → Bytes → Bytes → List Bytes
  | _, [], cur => if cur = [] then [] else lastField cur
  | room, c :: rest, cur =>
    if isSep c then
      if cur = [] then fieldsSpec room rest []
      else
        match room with
        | 0 => lastField (cur ++ c :: rest)
        | room + 1 => cur :: fieldsSpec room rest []
    else fieldsSpec room rest (cur ++ [c])

/-! ## The effective domain as the documentation describes it -/

/-- The host with one trailing dot removed: when the last byte of `s` is a
dot, the bytes before it; otherwise `s`. -/
def withoutTrailingDot (s : Bytes) : Bytes :=
  match s.reverse with
  | [] => s
  | c :: r => if c = 46 then r.reverse else s

/-- The shared public-suffix labels: `ac`, `co`, `org`, `com`, `net`, `edu`. -/
def sharedSuffixLabels : List Bytes :=
  [[97, 99], [99, 111], [111, 114, 103], [99, 111, 109], [110, 101, 116], [101, 100, 117]]

/-- The last `k` labels of a list of labels. -/
def lastLabels (k : Nat) (labels : List Bytes) : List Bytes :=
  labels.drop (labels.length - k)

/-- The effective domain of a host that has no port and at least two labels:
with `h` the host without one trailing dot, the last three dot-separated
labels of `h` joined by dots when `h` has at least three labels and its
second-to-last label is a shared suffix label, the last two labels joined by
dots otherwise. -/
def expectedDomain (host : Bytes) : Bytes :=
  let labels := stringsSplit 46 (withoutTrailingDot host)
  if 3 ≤ labels.length ∧ labels.getD (labels.length - 2) [] ∈ sharedSuffixLabels then
    stringsJoin 46 (lastLabels 3 labels)
  else stringsJoin 46 (lastLabels 2 labels)

/-- A `splitHostPort` that finds no port: the host is returned unchanged. -/
def noPortSplit : Bytes → Bytes × Bytes :=
  fun h => (h, [])

/-! ## Facts about the string functions -/

theorem stringsLastIndex_ge (sep : Byte) (s : Bytes) : -1 ≤ stringsLastIndex sep s := by
  induction s with
  | nil => simp [stringsLastIndex]
  | cons c cs ih =>
    simp only [stringsLastIndex]
    split_ifs <;> omega

theorem stringsLastIndex_eq_neg_one (sep : Byte) (s : Bytes) :
    stringsLastIndex sep s = -1 ↔ sep ∉ s := by
  induction s with
  | nil => simp [stringsLastIndex]
  | cons c cs ih =>
    have hge := stringsLastIndex_ge sep cs
    simp only [stringsLastIndex, List.mem_cons, not_or]
    split_ifs with h1 h2
    · constructor
      · intro h; omega
      · rintro ⟨_, h⟩
        have := ih.mpr h
        omega
    · constructor
      · intro h; exact absurd h (by decide)
      · rintro ⟨h, _⟩
        exact absurd h2.symm h
    · have h3 : stringsLastIndex sep cs = -1 := by omega
      constructor
      · intro _
        exact ⟨fun h => h2 h.symm, ih.mp h3⟩
      · intro _; rfl

/-- A non-negative result of `stringsLastIndex` cuts the string at its last
separator. -/
theorem stringsLastIndex_decomp (sep : Byte) (s : Bytes) (h : 0 ≤ stringsLastIndex sep s) :
    ∃ a b : Bytes, s = a ++ sep :: b ∧ sep ∉ b ∧
      stringsLastIndex sep s = (a.length : Int) := by
  induction s with
  | nil => simp [stringsLastIndex] at h
  | cons c cs ih =>
    simp only [stringsLastIndex] at h ⊢
    split_ifs at h ⊢ with h1 h2
    · obtain ⟨a, b, hs, hb, hl⟩ := ih h1
      refine ⟨c :: a, b, by rw [hs]; rfl, hb, ?_⟩
      rw [hl]; simp
    · have hge := stringsLastIndex_ge sep cs
      have h3 : stringsLastIndex sep cs = -1 := by omega
      refine ⟨[], cs, by rw [h2]; rfl, (stringsLastIndex_eq_neg_one sep cs).mp h3, by simp⟩
    · omega

theorem stringsSplit_ne_nil (sep : Byte) (s : Bytes) : stringsSplit sep s ≠ [] := by
  cases s with
  | nil => simp [stringsSplit]
  | cons c cs =>
    simp only [stringsSplit]
    split_ifs
    · simp
    · split <;> simp

theorem stringsSplit_of_not_mem (sep : Byte) (s : Bytes) (h : sep ∉ s) :
    stringsSplit sep s = [s] := by
  induction s with
  | nil => rfl
  | cons c cs ih =>
    simp only [List.mem_cons, not_or] at h
    simp only [stringsSplit]
    rw [if_neg (fun hc => h.1 hc.symm), ih h.2]

theorem stringsSplit_append (sep : Byte) (a b : Bytes) :
    stringsSplit sep (a ++ sep :: b) = stringsSplit sep a ++ stringsSplit sep b := by
  induction a with
  | nil => simp [stringsSplit]
  | cons c cs ih =>
    have e : (c :: cs) ++ sep :: b = c :: (cs ++ sep :: b) := rfl
    rw [e]
    simp only [stringsSplit]
    split_ifs with hc
    · rw [ih]; rfl
    · rw [ih]
      have hne := stringsSplit_ne_nil sep cs
      cases hcs : stringsSplit sep cs with
      | nil => exact absurd hcs hne
      | cons p ps => simp

theorem slice_zero (s : Bytes) (n : Nat) : slice s 0 n = s.take n := by
  simp [slice]

theorem slice_append_mid (a m : Bytes) (c : Byte) (b : Bytes) :
    slice (a ++ c :: (m ++ b)) (a.length + 1) (a.length + 1 + m.length) = m := by
  simp [slice, List.drop_append]

theorem drop_length_append (xs ys : List Bytes) :
    (xs ++ ys).drop ((xs ++ ys).length - ys.length) = ys := by
  have : (xs ++ ys).length - ys.length = xs.length := by simp
  rw [this]; simp

theorem getD_length_append (xs : List Bytes) (p c : Bytes) :
    (xs ++ [p, c]).getD ((xs ++ [p, c]).length - 2) [] = p := by
  have : (xs ++ [p, c]).length - 2 = xs.length := by simp
  rw [this, List.getD_eq_getElem?_getD, List.getElem?_append_right (le_refl _)]
  simp

/-- The label logic of `host2Domain` on a host `h` that passed the port, IP
and trailing-dot steps. -/
theorem host2Domain_core (h : Bytes) (hlab : 2 ≤ (stringsSplit 46 h).length) :
    (if stringsLastIndex 46 h = -1 then []
     else
      if stringsLastIndex 46 (slice h 0 (stringsLastIndex 46 h).toNat) = -1 then h
      else
        if topLevelDomain (slice h
            (stringsLastIndex 46 (slice h 0 (stringsLastIndex 46 h).toNat) + 1).toNat
            (stringsLastIndex 46 h).toNat) = true then
          if stringsLastIndex 46 (slice h 0
              (stringsLastIndex 46 (slice h 0 (stringsLastIndex 46 h).toNat)).toNat) = -1 then h
          else h.drop (stringsLastIndex 46 (slice h 0
              (stringsLastIndex 46 (slice h 0 (stringsLastIndex 46 h).toNat)).toNat) + 1).toNat
        else h.drop (stringsLastIndex 46 (slice h 0 (stringsLastIndex 46 h).toNat) + 1).toNat)
    = if 3 ≤ (stringsSplit 46 h).length ∧
          topLevelDomain ((stringsSplit 46 h).getD ((stringsSplit 46 h).length - 2) []) = true
      then stringsJoin 46 ((stringsSplit 46 h).drop ((stringsSplit 46 h).length - 3))
      else stringsJoin 46 ((stringsSplit 46 h).drop ((stringsSplit 46 h).length - 2)) := by
  by_cases hl : stringsLastIndex 46 h = -1
  · have hno := (stringsLastIndex_eq_neg_one 46 h).mp hl
    rw [stringsSplit_of_not_mem 46 h hno] at hlab
    simp at hlab
  · have hge := stringsLastIndex_ge 46 h
    obtain ⟨A, c, rfl, hc, hA⟩ := stringsLastIndex_decomp 46 h (by omega)
    rw [if_neg hl, hA]
    have sA : slice (A ++ 46 :: c) 0 A.length = A := by simp [slice]
    simp only [Int.toNat_ofNat, sA]
    rw [stringsSplit_append, stringsSplit_of_not_mem 46 c hc]
    by_cases h2 : stringsLastIndex 46 A = -1
    · have hno := (stringsLastIndex_eq_neg_one 46 A).mp h2
      rw [if_pos h2, stringsSplit_of_not_mem 46 A hno]
      simp [stringsJoin]
    · have hge2 := stringsLastIndex_ge 46 A
      obtain ⟨B, p, rfl, hp, hB⟩ := stringsLastIndex_decomp 46 A (by omega)
      rw [if_neg h2, hB]
      have e1 : ((B.length : Int) + 1).toNat = B.length + 1 := by omega
      have sp : slice (B ++ 46 :: p ++ 46 :: c) (B.length + 1) (B ++ 46 :: p).length = p := by
        have := slice_append_mid B p 46 (46 :: c)
        simpa [Nat.add_assoc, Nat.add_comm, Nat.add_left_comm] using this
      have sB : slice (B ++ 46 :: p ++ 46 :: c) 0 B.length = B := by simp [slice]
      simp only [e1, Int.toNat_ofNat, sp, sB]
      rw [stringsSplit_append, stringsSplit_of_not_mem 46 p hp]
      have hlen : 3 ≤ (stringsSplit 46 B ++ [p] ++ [c]).length := by
        have := stringsSplit_ne_nil 46 B
        cases hs : stringsSplit 46 B with
        | nil => exact absurd hs this
        | cons x xs => simp
      have hget : (stringsSplit 46 B ++ [p] ++ [c]).getD
          ((stringsSplit 46 B ++ [p] ++ [c]).length - 2) [] = p := by
        have := getD_length_append (stringsSplit 46 B) p c
        simpa using this
      rw [hget]
      by_cases ht : topLevelDomain p = true
      · have hcond : 3 ≤ (stringsSplit 46 B ++ [p] ++ [c]).length ∧ topLevelDomain p = true :=
          ⟨hlen, ht⟩
        rw [if_pos ht, if_pos hcond]
        by_cases h3 : stringsLastIndex 46 B = -1
        · have hno := (stringsLastIndex_eq_neg_one 46 B).mp h3
          rw [if_pos h3, stringsSplit_of_not_mem 46 B hno]
          simp [stringsJoin]
        · have hge3 := stringsLastIndex_ge 46 B
          obtain ⟨D, q, rfl, hq, hD⟩ := stringsLastIndex_decomp 46 B (by omega)
          rw [if_neg h3, hD]
          have e2 : ((D.length : Int) + 1).toNat = D.length + 1 := by omega
          rw [e2, stringsSplit_append, stringsSplit_of_not_mem 46 q hq]
          have hd := drop_length_append (stringsSplit 46 D) [q, p, c]
          simp only [List.length_cons, List.length_nil] at hd
          have e3 : stringsSplit 46 D ++ [q] ++ [p] ++ [c] = stringsSplit 46 D ++ [q, p, c] := by
            simp
          rw [e3, hd]
          simp [stringsJoin, List.drop_append]
      · have hcond : ¬ (3 ≤ (stringsSplit 46 B ++ [p] ++ [c]).length ∧
            topLevelDomain p = true) := fun hh => ht hh.2
        rw [if_neg ht, if_neg hcond]
        have hd := drop_length_append (stringsSplit 46 B) [p, c]
        simp only [List.length_cons, List.length_nil] at hd
        have e3 : stringsSplit 46 B ++ [p] ++ [c] = stringsSplit 46 B ++ [p, c] := by simp
        rw [e3, hd]
        simp [stringsJoin, List.drop_append]

/-- The result of `host2Domain` in terms of the labels of the host. -/
theorem host2Domain_labels_aux (splitHostPort : Bytes → Bytes × Bytes) (host : Bytes)
    (hport : (splitHostPort host).1 = host)
    (hip : hostIsIP host = false)
    (hlab : 2 ≤ (stringsSplit 46 (trimLastDot host)).length) :
    host2Domain splitHostPort host =
      if 3 ≤ (stringsSplit 46 (trimLastDot host)).length ∧
          topLevelDomain ((stringsSplit 46 (trimLastDot host)).getD
            ((stringsSplit 46 (trimLastDot host)).length - 2) []) = true
      then stringsJoin 46 ((stringsSplit 46 (trimLastDot host)).drop
            ((stringsSplit 46 (trimLastDot host)).length - 3))
      else stringsJoin 46 ((stringsSplit 46 (trimLastDot host)).drop
            ((stringsSplit 46 (trimLastDot host)).length - 2)) := by
  have := host2Domain_core (trimLastDot host) hlab
  rw [← this]
  simp only [host2Domain, hport, hip]
  rfl

theorem stringsJoin_ne_nil (sep : Byte) (l : List Bytes) (h : 2 ≤ l.length) :
    stringsJoin sep l ≠ [] := by
  match l, h with
  | p :: q :: ps, _ => simp [stringsJoin]

theorem stringsSplit_length_of_mem (sep : Byte) (s : Bytes) (h : sep ∈ s) :
    2 ≤ (stringsSplit sep s).length := by
  have hne : stringsLastIndex sep s ≠ -1 := fun hh =>
    (stringsLastIndex_eq_neg_one sep s).mp hh h
  have hge := stringsLastIndex_ge sep s
  obtain ⟨a, b, rfl, hb, _⟩ := stringsLastIndex_decomp sep s (by omega)
  rw [stringsSplit_append, stringsSplit_of_not_mem sep b hb]
  have := stringsSplit_ne_nil sep a
  cases hs : stringsSplit sep a with
  | nil => exact absurd hs this
  | cons x xs => simp

theorem isDigit_not_sign (c : Byte) (h : IsDigit c = true) : c ≠ 43 ∧ c ≠ 45 := by
  simp only [IsDigit, Bool.and_eq_true, decide_eq_true_eq] at h
  constructor <;> intro hc <;> rw [hc] at h <;> exact absurd h.1 (by decide)

theorem strconvAtoi_digits (p : Bytes) (v : Nat) (hne : p ≠ [])
    (hd : p.all IsDigit = true) (hv : decimalValue p 0 = some v) (h255 : v ≤ 255) :
    strconvAtoi p = some (v : Int) := by
  obtain ⟨c, cs, rfl⟩ := List.exists_cons_of_ne_nil hne
  have hc : IsDigit c = true := by
    simp only [List.all_cons, Bool.and_eq_true] at hd
    exact hd.1
  obtain ⟨h43, h45⟩ := isDigit_not_sign c hc
  simp only [strconvAtoi, if_neg h43, if_neg h45, hv]
  have hr : -(2 : Int) ^ 63 ≤ (v : Int) ∧ (v : Int) < (2 : Int) ^ 63 := by
    constructor <;> omega
  simp only [Bool.false_eq_true, if_false, if_pos hr]

theorem hostIsIP_loop_of_digits :
    ∀ parts : List Bytes,
      parts.all (fun p =>
        decide (1 ≤ p.length) && decide (p.length ≤ 3) && p.all IsDigit &&
          match decimalValue p 0 with
          | some v => decide (v ≤ 255)
          | none => false) = true →
      hostIsIP.loop parts = true := by
  intro parts
  induction parts with
  | nil => intro _; rfl
  | cons p ps ih =>
    intro h
    simp only [List.all_cons, Bool.and_eq_true, decide_eq_true_eq] at h
    obtain ⟨⟨⟨⟨h1, h3⟩, hd⟩, hv⟩, hrest⟩ := h
    cases hdv : decimalValue p 0 with
    | none => rw [hdv] at hv; cases hv
    | some v =>
      rw [hdv] at hv
      have h255 : v ≤ 255 := by simpa using hv
      have hne : p ≠ [] := by
        intro h0; rw [h0] at h1; simp at h1
      have hat := strconvAtoi_digits p v hne hd hdv h255
      have hlen : ¬ (p.length = 0 ∨ p.length > 3) := by omega
      have hrange : ¬ ((v : Int) < 0 ∨ (v : Int) > 255) := by omega
      simp only [hostIsIP.loop, if_neg hlen, hat, if_neg hrange]
      exact ih (by simpa using hrest)

/-- Every dotted-quad IPv4 literal is accepted by `hostIsIP`. -/
theorem hostIsIP_of_isDottedQuad (host : Bytes) (h : isDottedQuad host = true) :
    hostIsIP host = true := by
  simp only [isDottedQuad, Bool.and_eq_true, decide_eq_true_eq] at h
  obtain ⟨h4, hall⟩ := h
  have hne : ¬ ((stringsSplit 46 host).length ≠ 4) := by simp [h4]
  simp only [hostIsIP, if_neg hne]
  exact hostIsIP_loop_of_digits _ hall

/-! ### `host2Domain` against the documented effective domain -/

theorem trimLastDot_eq_withoutTrailingDot (s : Bytes) :
    trimLastDot s = withoutTrailingDot s := by
  rcases List.eq_nil_or_concat s with rfl | ⟨l, c, rfl⟩
  · rfl
  · have hpos : (l ++ [c]).length > 0 := by simp
    have hlast : (l ++ [c]).getLast? = some c := by simp
    have htake : (l ++ [c]).take ((l ++ [c]).length - 1) = l := by simp
    have hrev : (l ++ [c]).reverse = c :: l.reverse := by simp
    simp only [trimLastDot, withoutTrailingDot, hlast, htake, hrev, Option.some.injEq,
      List.reverse_reverse]
    by_cases hc : c = 46
    · simp [hc]
    · simp [hc]

theorem topLevelDomain_iff_shared (part : Bytes) :
    topLevelDomain part = true ↔ part ∈ sharedSuffixLabels := by
  have e : [bytesOf "ac", bytesOf "co", bytesOf "org", bytesOf "com", bytesOf "net",
      bytesOf "edu"] = sharedSuffixLabels := by decide
  simp only [topLevelDomain, decide_eq_true_eq, e]

/-- Where `hostIsIP` rejects the host, `host2Domain` returns the documented
effective domain. -/
theorem host2Domain_eq_expectedDomain (splitHostPort : Bytes → Bytes × Bytes) (host : Bytes)
    (hport : (splitHostPort host).1 = host)
    (hip : hostIsIP host = false)
    (hlab : 2 ≤ (stringsSplit 46 (withoutTrailingDot host)).length) :
    host2Domain splitHostPort host = expectedDomain host := by
  rw [← trimLastDot_eq_withoutTrailingDot] at hlab
  rw [host2Domain_labels_aux splitHostPort host hport hip hlab]
  simp only [expectedDomain, lastLabels, ← trimLastDot_eq_withoutTrailingDot,
    topLevelDomain_iff_shared]

/-- The examples of the documentation, with and without a trailing dot. -/
theorem host2Domain_examples :
    host2Domain noPortSplit (bytesOf "foo.bbc.co.uk") = bytesOf "bbc.co.uk" ∧
    host2Domain noPortSplit (bytesOf "www.google.com") = bytesOf "google.com" ∧
    host2Domain noPortSplit (bytesOf "www.google.com.") = bytesOf "google.com" ∧
    expectedDomain (bytesOf "foo.bbc.co.uk") = bytesOf "bbc.co.uk" ∧
    expectedDomain (bytesOf "www.google.com.") = bytesOf "google.com" := by
  decide

/-- C1: the host `+1.2.3.4` has no port, is not a dotted-quad IPv4 literal and
has the four labels `+1`, `2`, `3`, `4`, so its effective domain is the last
two labels joined by a dot, `3.4`; `host2Domain` returns the empty string,
because `hostIsIP` takes the host for an IP address. -/
theorem host2Domain_signed_quad :
    (noPortSplit (bytesOf "+1.2.3.4")).1 = bytesOf "+1.2.3.4" ∧
    isDottedQuad (bytesOf "+1.2.3.4") = false ∧
    stringsSplit 46 (withoutTrailingDot (bytesOf "+1.2.3.4")) =
      [bytesOf "+1", bytesOf "2", bytesOf "3", bytesOf "4"] ∧
    expectedDomain (bytesOf "+1.2.3.4") = bytesOf "3.4" ∧
    hostIsIP (bytesOf "+1.2.3.4") = true ∧
    host2Domain noPortSplit (bytesOf "+1.2.3.4") = [] := by
  decide

/-- C2: for a host without a port, `host2Domain` returns the empty string
exactly when `hostIsIP` holds of the host or the host, one trailing dot
removed, contains no dot; in particular it returns the empty string on every
dotted-quad IPv4 literal. -/
theorem host2Domain_eq_nil_iff (splitHostPort : Bytes → Bytes × Bytes) (host : Bytes)
    (hport : (splitHostPort host).1 = host) :
    (host2Domain splitHostPort host = [] ↔
      (hostIsIP host = true ∨ (46 : Byte) ∉ withoutTrailingDot host)) ∧
    (isDottedQuad host = true → host2Domain splitHostPort host = []) := by
  have hiff : host2Domain splitHostPort host = [] ↔
      (hostIsIP host = true ∨ (46 : Byte) ∉ withoutTrailingDot host) := by
    rw [← trimLastDot_eq_withoutTrailingDot]
    by_cases hip : hostIsIP host = true
    · simp [host2Domain, hport, hip]
    · have hip2 : hostIsIP host = false := by simpa using hip
      by_cases hdot : (46 : Byte) ∈ trimLastDot host
      · have hlab := stringsSplit_length_of_mem 46 _ hdot
        have hne : host2Domain splitHostPort host ≠ [] := by
          rw [host2Domain_labels_aux splitHostPort host hport hip2 hlab]
          split_ifs
          · apply stringsJoin_ne_nil
            rw [List.length_drop]; omega
          · apply stringsJoin_ne_nil
            rw [List.length_drop]; omega
        simp [hne, hip2, hdot]
      · have hl := (stringsLastIndex_eq_neg_one 46 _).mpr hdot
        simp [host2Domain, hport, hip2, hl, hdot]
  exact ⟨hiff, fun hq => hiff.mpr (Or.inl (hostIsIP_of_isDottedQuad host hq))⟩

theorem host2Domain_eq_nil_iff_witness :
    withoutTrailingDot (bytesOf "localhost.") = bytesOf "localhost" ∧
    host2Domain noPortSplit (bytesOf "localhost.") = [] ∧
    host2Domain noPortSplit (bytesOf "localhost") = [] ∧
    isDottedQuad (bytesOf "192.168.1.1") = true ∧
    host2Domain noPortSplit (bytesOf "192.168.1.1") = [] ∧
    host2Domain noPortSplit (bytesOf "www.google.com.") ≠ [] :=
  ⟨by decide,
   (host2Domain_eq_nil_iff noPortSplit (bytesOf "localhost.") rfl).1.mpr (Or.inr (by decide)),
   (host2Domain_eq_nil_iff noPortSplit (bytesOf "localhost") rfl).1.mpr (Or.inr (by decide)),
   by decide,
   (host2Domain_eq_nil_iff noPortSplit (bytesOf "192.168.1.1") rfl).2 (by decide),
   fun h => absurd ((host2Domain_eq_nil_iff noPortSplit (bytesOf "www.google.com.") rfl).1.mp h)
     (by decide)⟩

/-- C3: `hostIsIP` accepts `+1.2.3.4`, whose first part is not made of decimal
digits only, so the host is not a dotted-quad IPv4 literal. -/
theorem hostIsIP_signed_part :
    hostIsIP (bytesOf "+1.2.3.4") = true ∧ isDottedQuad (bytesOf "+1.2.3.4") = false := by
  decide

/-- C4: on the one-byte string `a` (byte 97) `stringHash` returns
`5381 * 32 + 1 + 97 = 172290`, and the djb2 hash is `5381 * 33 + 97 = 177670`. -/
theorem stringHash_single_byte :
    stringHash (bytesOf "a") = 172290 ∧ djb2 (bytesOf "a") = 177670 := by
  decide

/-! ## config.go: the configuration checks -/

theorem ParseShadowMethod_loop_eq (socks : Nat) :
    ∀ (fuel : Nat) (m : List Bytes), socks - (m.length + 1) ≤ fuel →
      ParseShadowMethod.loop socks fuel m = m ++ List.replicate (socks - (m.length + 1)) [] := by
  intro fuel
  induction fuel with
  | zero =>
    intro m h
    have h0 : socks - (m.length + 1) = 0 := by omega
    simp [ParseShadowMethod.loop, h0]
  | succ fuel ih =>
    intro m h
    simp only [ParseShadowMethod.loop]
    split_ifs with hlt
    · rw [ih (m ++ [[]]) (by simp; omega)]
      have e : socks - (m.length + 1) = (socks - ((m ++ [[]]).length + 1)) + 1 := by
        simp; omega
      rw [e, List.replicate_succ]
      simp
    · have h0 : socks - (m.length + 1) = 0 := by omega
      simp [h0]

/-- With the bound `ParseShadowMethod` passes, the loop is left because its
condition is false. -/
theorem ParseShadowMethod_loop_exit (socks : Nat) (m : List Bytes) :
    ¬ ((ParseShadowMethod.loop socks socks m).length + 1 < socks) := by
  rw [ParseShadowMethod_loop_eq socks socks m (by omega)]
  simp; omega

theorem checkConfig_loop_eq (socks : Nat) :
    ∀ (fuel : Nat) (m : List Bytes), socks - m.length ≤ fuel →
      checkConfig.loop socks fuel m = m ++ List.replicate (socks - m.length) [] := by
  intro fuel
  induction fuel with
  | zero =>
    intro m h
    have h0 : socks - m.length = 0 := by omega
    simp [checkConfig.loop, h0]
  | succ fuel ih =>
    intro m h
    simp only [checkConfig.loop]
    split_ifs with hlt
    · rw [ih (m ++ [[]]) (by simp; omega)]
      have e : socks - m.length = (socks - (m ++ [[]]).length) + 1 := by
        simp; omega
      rw [e, List.replicate_succ]
      simp
    · have h0 : socks - m.length = 0 := by omega
      simp [h0]

/-- With the bound `checkConfig` passes, the loop is left because its
condition is false. -/
theorem checkConfig_loop_exit (socks : Nat) (m : List Bytes) :
    ¬ ((checkConfig.loop socks socks m).length < socks) := by
  rw [checkConfig_loop_eq socks socks m (by omega)]
  simp; omega

/-- What a normal return of `checkConfig` says about the state before and
after. -/
theorem checkConfig_ok (st st' : State) (h : checkConfig st = Except.ok st') :
    st.config.ShadowSocks.length = st.config.ShadowPasswd.length ∧
    st'.config.ShadowSocks = st.config.ShadowSocks ∧
    st'.config.ShadowPasswd = st.config.ShadowPasswd ∧
    st'.config.ShadowMethod = checkConfig.loop st.config.ShadowSocks.length
      st.config.ShadowSocks.length st.config.ShadowMethod ∧
    st'.parentProxyCreator = st.parentProxyCreator ∧
    st'.config.LoadBalance =
      (if st.parentProxyCreator.length ≤ 1 then LoadBalanceMode.loadBalanceBackup
       else st.config.LoadBalance) := by
  obtain ⟨⟨la, lb, sp, hp, hhp, ss, spw, sm, pac⟩, ppc, pfc⟩ := st
  by_cases h1 : ss.length = spw.length
  · cases la <;> cases pac <;> by_cases h2 : ppc.length ≤ 1 <;>
      simp only [checkConfig, h1, h2, ne_eq, not_true_eq_false, if_false, if_true,
        Option.getD, reduceCtorEq] at h <;>
      (try split_ifs at h) <;>
      (try (injection h with h; subst h; simp [h1, h2]))
  · simp [checkConfig, h1] at h

/-- C5: when the numbers of shadowsocks servers and of shadowsocks passwords
differ, `checkConfig` ends in the fatal error and does not return. -/
theorem checkConfig_fatal_of_length_mismatch (st : State)
    (h : st.config.ShadowSocks.length ≠ st.config.ShadowPasswd.length) :
    checkConfig st =
      Except.error "number of shadowsocks server and password does not match" ∧
    ∀ st' : State, checkConfig st ≠ Except.ok st' := by
  have e : checkConfig st =
      Except.error "number of shadowsocks server and password does not match" := by
    simp [checkConfig, h]
  refine ⟨e, ?_⟩
  intro st' h'
  rw [e] at h'
  cases h'

theorem checkConfig_fatal_of_length_mismatch_witness :
    stateOneServer.config.ShadowSocks.length ≠ stateOneServer.config.ShadowPasswd.length ∧
    checkConfig stateOneServer =
      Except.error "number of shadowsocks server and password does not match" :=
  ⟨by decide, (checkConfig_fatal_of_length_mismatch stateOneServer (by decide)).1⟩

/-- The invariant of the three option parsers: the given methods have one
entry per server, and read with the empty string as default they are the list
`ShadowMethod` followed by empty strings. -/
theorem shadow_call_inv (splitHostPort : Bytes → Bytes × Bytes) (c : ShadowCall)
    (st st' : State) (g : List (Option Bytes))
    (hlen : g.length = st.config.ShadowSocks.length)
    (hg : ∃ k, g.map (fun o => o.getD []) = st.config.ShadowMethod ++ List.replicate k [])
    (hrun : c.run splitHostPort st = Except.ok st') :
    (givenMethods [c] g).length = st'.config.ShadowSocks.length ∧
    ∃ k, (givenMethods [c] g).map (fun o => o.getD []) =
      st'.config.ShadowMethod ++ List.replicate k [] := by
  obtain ⟨k, hk⟩ := hg
  cases c with
  | socks val =>
    simp only [ShadowCall.run, ParseShadowSocks] at hrun
    split_ifs at hrun
    injection hrun with hrun
    subst hrun
    refine ⟨by simp [givenMethods, hlen], k + 1, ?_⟩
    simp [givenMethods, hk, List.replicate_succ']
  | passwd val =>
    simp only [ShadowCall.run, ParseShadowPasswd] at hrun
    split_ifs at hrun
    injection hrun with hrun
    subst hrun
    exact ⟨by simp [givenMethods, hlen], k, by simp [givenMethods, hk]⟩
  | method val =>
    simp only [ShadowCall.run, ParseShadowMethod] at hrun
    split_ifs at hrun with h1
    injection hrun with hrun
    subst hrun
    have hkl : g.length = st.config.ShadowMethod.length + k := by
      have := congrArg List.length hk
      simpa using this
    have hk1 : 1 ≤ k := by omega
    have hgne : g ≠ [] := by
      intro h0; rw [h0] at hkl; simp at hkl; omega
    refine ⟨?_, 0, ?_⟩
    · simp only [givenMethods, List.length_append, List.length_dropLast, List.length_singleton]
      rw [← hlen]
      have : 0 < g.length := List.length_pos.mpr hgne
      omega
    · simp only [givenMethods, List.map_append, List.map_dropLast, hk, List.map_cons,
        List.map_nil, Option.getD_some, List.replicate_zero, List.append_nil]
      rw [ParseShadowMethod_loop_eq _ _ _ (by omega)]
      have e1 : st.config.ShadowSocks.length - (st.config.ShadowMethod.length + 1) = k - 1 := by
        omega
      rw [e1]
      obtain ⟨j, rfl⟩ : ∃ j, k = j + 1 := ⟨k - 1, by omega⟩
      rw [List.replicate_succ', ← List.append_assoc, List.dropLast_concat]
      simp

theorem runCalls_inv (splitHostPort : Bytes → Bytes × Bytes) :
    ∀ (calls : List ShadowCall) (st st' : State) (g : List (Option Bytes)),
      g.length = st.config.ShadowSocks.length →
      (∃ k, g.map (fun o => o.getD []) = st.config.ShadowMethod ++ List.replicate k []) →
      runCalls splitHostPort calls st = Except.ok st' →
      (givenMethods calls g).length = st'.config.ShadowSocks.length ∧
      ∃ k, (givenMethods calls g).map (fun o => o.getD []) =
        st'.config.ShadowMethod ++ List.replicate k [] := by
  intro calls
  induction calls with
  | nil =>
    intro st st' g hlen hg hrun
    simp only [runCalls] at hrun
    injection hrun with hrun
    subst hrun
    exact ⟨hlen, hg⟩
  | cons c cs ih =>
    intro st st' g hlen hg hrun
    simp only [runCalls] at hrun
    cases hc : c.run splitHostPort st with
    | error msg => rw [hc] at hrun; cases hrun
    | ok st1 =>
      rw [hc] at hrun
      have h1 := shadow_call_inv splitHostPort c st st1 g hlen hg hc
      have e : givenMethods (c :: cs) g = givenMethods cs (givenMethods [c] g) := by
        cases c <;> simp [givenMethods]
      rw [e]
      exact ih st1 st' _ h1.1 h1.2 hrun

/-- C6: from the initial configuration, after a sequence of `ParseShadowSocks`,
`ParseShadowPasswd` and `ParseShadowMethod` calls none of which is fatal and a
`checkConfig` that returns, the lists `ShadowSocks`, `ShadowPasswd` and
`ShadowMethod` have the same length, and `ShadowMethod` holds at each position
the method given for that server, or the empty string where none was given. -/
theorem shadow_lists_after_checkConfig (splitHostPort : Bytes → Bytes × Bytes)
    (calls : List ShadowCall) (st st' : State)
    (hrun : runCalls splitHostPort calls State.init = Except.ok st)
    (hchk : checkConfig st = Except.ok st') :
    st'.config.ShadowPasswd.length = st'.config.ShadowSocks.length ∧
    st'.config.ShadowMethod.length = st'.config.ShadowSocks.length ∧
    st'.config.ShadowMethod = (givenMethods calls []).map (fun o => o.getD []) := by
  obtain ⟨hlen, k, hk⟩ := runCalls_inv splitHostPort calls State.init st [] rfl
    ⟨0, rfl⟩ hrun
  obtain ⟨h1, h2, h3, h4, _, _⟩ := checkConfig_ok st st' hchk
  have hkl : (givenMethods calls []).length = st.config.ShadowMethod.length + k := by
    have := congrArg List.length hk
    simpa using this
  have hm : st'.config.ShadowMethod = (givenMethods calls []).map (fun o => o.getD []) := by
    rw [h4, checkConfig_loop_eq _ _ _ (by omega), hk]
    congr 2
    omega
  refine ⟨by rw [h2, h3, h1], ?_, hm⟩
  rw [hm, h2, List.length_map, hlen]

theorem shadow_lists_after_checkConfig_witness :
    runCalls splitHostPortAlways callsTwoServers State.init = Except.ok stateTwoServers ∧
    checkConfig stateTwoServers = Except.ok stateTwoServersChecked ∧
    stateTwoServersChecked.config.ShadowMethod = [[], bytesOf "m"] ∧
    (givenMethods callsTwoServers []).map (fun o => o.getD []) = [[], bytesOf "m"] :=
  ⟨rfl, rfl,
    (shadow_lists_after_checkConfig splitHostPortAlways callsTwoServers stateTwoServers
      stateTwoServersChecked rfl rfl).2.2.trans (by decide), by decide⟩

/-- C7: after `checkConfig` returns, `LoadBalance` is `loadBalanceBackup` when
at most one parent proxy is registered, and is the value it had before
`checkConfig` when two or more are registered. -/
theorem checkConfig_loadBalance (st st' : State) (h : checkConfig st = Except.ok st') :
    (st.parentProxyCreator.length ≤ 1 →
      st'.config.LoadBalance = LoadBalanceMode.loadBalanceBackup) ∧
    (2 ≤ st.parentProxyCreator.length →
      st'.config.LoadBalance = st.config.LoadBalance) ∧
    st'.parentProxyCreator = st.parentProxyCreator := by
  obtain ⟨_, _, _, _, h5, h6⟩ := checkConfig_ok st st' h
  refine ⟨?_, ?_, h5⟩
  · intro hle
    rw [h6, if_pos hle]
  · intro hge
    rw [h6, if_neg (by omega)]

theorem checkConfig_loadBalance_witness :
    checkConfig stateTwoParents = Except.ok stateTwoParentsChecked ∧
    2 ≤ stateTwoParents.parentProxyCreator.length ∧
    stateTwoParentsChecked.config.LoadBalance = LoadBalanceMode.loadBalanceHash :=
  ⟨rfl, by decide,
    ((checkConfig_loadBalance stateTwoParents stateTwoParentsChecked rfl).2.1
      (by decide)).trans rfl⟩

/-! ## util.go: `ParseIntFromBytes` -/

theorem wrap64_of_range (x : Int) (hlo : -2 ^ 63 ≤ x) (hhi : x < 2 ^ 63) : wrap64 x = x := by
  simp only [wrap64]
  omega

theorem wrap64_step10 (a d : Int) :
    wrap64 (wrap64 (wrap64 a * 10) + d) = wrap64 (a * 10 + d) := by
  simp only [wrap64]
  omega

theorem wrap64_step16 (a d : Int) :
    wrap64 (wrap64 (wrap64 a * 16) + d) = wrap64 (a * 16 + d) := by
  simp only [wrap64]
  omega

theorem wrap64_neg_wrap64 (a : Int) : wrap64 (-(wrap64 a)) = wrap64 (-a) := by
  simp only [wrap64]
  omega

theorem digitTbl_digitByte_fin :
    ∀ (upper : Bool) (d : Fin 16),
      digitTbl.getD (digitByte upper d.val).val 0 = (d.val : Int) ∧
      digitByte upper d.val ≠ 43 ∧ digitByte upper d.val ≠ 45 := by
  decide

theorem digitTbl_digitByte (upper : Bool) (d : Nat) (h : d < 16) :
    digitTbl.getD (digitByte upper d).val 0 = (d : Int) ∧
    digitByte upper d ≠ 43 ∧ digitByte upper d ≠ 45 :=
  digitTbl_digitByte_fin upper ⟨d, h⟩

/-- The value of a list of digit values, most significant first, from the
accumulator `a`. -/
theorem loop_digits (base : Nat) (hb : base = 10 ∨ base = 16) (upper : Bool) (b0 : Bytes) :
    ∀ (ds : List Nat), (∀ d ∈ ds, d < base) → ∀ a : Int,
      ParseIntFromBytes.loop (base : Int) b0 (ds.map (digitByte upper)) (wrap64 a) =
        (wrap64 (ds.foldl (fun (x : Int) (d : Nat) => x * (base : Int) + (d : Int)) a), none) := by
  intro ds
  induction ds with
  | nil => intro _ a; rfl
  | cons d ds ih =>
    intro hlt a
    have hd : d < base := hlt d (List.mem_cons_self d ds)
    have hd16 : d < 16 := by rcases hb with h | h <;> omega
    have hv := (digitTbl_digitByte upper d hd16).1
    simp only [List.map_cons, ParseIntFromBytes.loop, hv, List.foldl_cons]
    have h1 : ¬ ((d : Int) = -1) := by omega
    have h2 : ¬ ((d : Int) ≥ (base : Int)) := by omega
    rw [if_neg h1, if_neg h2]
    have hstep : wrap64 (wrap64 (wrap64 a * (base : Int)) + (d : Int)) =
        wrap64 (a * (base : Int) + (d : Int)) := by
      rcases hb with h | h <;> subst h
      · exact wrap64_step10 a d
      · exact wrap64_step16 a d
    rw [hstep]
    exact ih (fun x hx => hlt x (List.mem_cons_of_mem d hx)) _

theorem foldr_ofDigits (base : Nat) (L : List Nat) :
    L.foldr (fun (d : Nat) (x : Int) => x * (base : Int) + (d : Int)) 0 =
      ((Nat.ofDigits base L : Nat) : Int) := by
  induction L with
  | nil => simp
  | cons d L ih =>
    rw [List.foldr_cons, ih, Nat.ofDigits_cons]
    push_cast
    ring

theorem foldl_natDigits (base n : Nat) :
    (natDigits base n).foldl (fun (x : Int) (d : Nat) => x * (base : Int) + (d : Int)) 0 =
      (n : Int) := by
  unfold natDigits
  split_ifs with h0
  · simp [h0]
  · rw [List.foldl_reverse, foldr_ofDigits, Nat.ofDigits_digits]

theorem natDigits_lt (base n : Nat) (hb : 1 < base) : ∀ d ∈ natDigits base n, d < base := by
  intro d hd
  unfold natDigits at hd
  split_ifs at hd with h0
  · simp at hd; omega
  · exact Nat.digits_lt_base hb (List.mem_reverse.mp hd)

theorem natDigits_ne_nil (base n : Nat) : natDigits base n ≠ [] := by
  unfold natDigits
  split_ifs with h0
  · simp
  · simpa using Nat.digits_ne_nil_iff_ne_zero.mpr h0

/-- Parsing a non-empty run of digits, bare, after `+` and after `-`. -/
theorem ParseIntFromBytes_digits (base : Nat) (hb : base = 10 ∨ base = 16) (upper : Bool)
    (ds : List Nat) (hne : ds ≠ []) (hlt : ∀ d ∈ ds, d < base) :
    ParseIntFromBytes (ds.map (digitByte upper)) (base : Int) =
      (wrap64 (ds.foldl (fun (x : Int) (d : Nat) => x * (base : Int) + (d : Int)) 0), none) ∧
    ParseIntFromBytes (43 :: ds.map (digitByte upper)) (base : Int) =
      (wrap64 (ds.foldl (fun (x : Int) (d : Nat) => x * (base : Int) + (d : Int)) 0), none) ∧
    ParseIntFromBytes (45 :: ds.map (digitByte upper)) (base : Int) =
      (wrap64 (-(ds.foldl (fun (x : Int) (d : Nat) => x * (base : Int) + (d : Int)) 0)),
        none) := by
  have hbase : ¬ ((base : Int) ≠ 10 ∧ (base : Int) ≠ 16) := by
    rcases hb with h | h <;> subst h <;> simp
  have hw0 : wrap64 0 = 0 := by decide
  have hloop := fun b0 => loop_digits base hb upper b0 ds hlt 0
  simp only [hw0] at hloop
  obtain ⟨d, rest, rfl⟩ := List.exists_cons_of_ne_nil hne
  have hd16 : d < 16 := by
    have := hlt d (List.mem_cons_self d rest)
    rcases hb with h | h <;> omega
  obtain ⟨_, hn43, hn45⟩ := digitTbl_digitByte upper d hd16
  refine ⟨?_, ?_, ?_⟩
  · unfold ParseIntFromBytes
    rw [if_neg hbase]
    simp only [List.map_cons, List.length_cons, Nat.add_one_ne_zero, if_false, List.head?_cons,
      Option.some.injEq, hn43, hn45]
    have := hloop (digitByte upper d :: rest.map (digitByte upper))
    simp only [List.map_cons] at this
    rw [this]
    simp
  · unfold ParseIntFromBytes
    rw [if_neg hbase]
    simp only [List.length_cons, Nat.add_one_ne_zero, if_false, List.head?_cons, if_true,
      List.drop_succ_cons, List.drop_zero]
    rw [hloop]
    simp
  · unfold ParseIntFromBytes
    rw [if_neg hbase]
    have h4543 : ¬ ((45 : Byte) = 43) := by decide
    simp only [List.length_cons, Nat.add_one_ne_zero, if_false, List.head?_cons, if_true,
      Option.some.injEq, h4543, List.drop_succ_cons, List.drop_zero]
    rw [hloop]
    simp [wrap64_neg_wrap64]

/-- Round trip for one base. -/
theorem ParseIntFromBytes_renderInt (base : Nat) (hb : base = 10 ∨ base = 16) (upper : Bool)
    (v : Int) (hlo : -2 ^ 63 ≤ v) (hhi : v < 2 ^ 63) :
    ParseIntFromBytes (renderInt base upper v) (base : Int) = (v, none) ∧
    (0 ≤ v → ParseIntFromBytes (43 :: renderInt base upper v) (base : Int) = (v, none)) := by
  have hb1 : 1 < base := by rcases hb with h | h <;> omega
  obtain ⟨h1, h2, h3⟩ := ParseIntFromBytes_digits base hb upper (natDigits base v.natAbs)
    (natDigits_ne_nil base _) (natDigits_lt base _ hb1)
  rw [foldl_natDigits] at h1 h2 h3
  by_cases hneg : v < 0
  · have e : -((v.natAbs : Nat) : Int) = v := by omega
    refine ⟨?_, fun h => absurd h (by omega)⟩
    rw [renderInt, if_pos hneg, h3, e, wrap64_of_range v hlo hhi]
  · have e : ((v.natAbs : Nat) : Int) = v := by omega
    rw [renderInt, if_neg hneg, h1, h2, e, wrap64_of_range v hlo hhi]
    exact ⟨rfl, fun _ => rfl⟩

/-- C8: for every `v` in the `int64` range, `ParseIntFromBytes` returns `v` and
no error on the decimal rendering of `v` with base 10 and on the hexadecimal
rendering of `v` (lower or upper case) with base 16; for `v ≥ 0` a leading `+`
gives the same result. -/
theorem ParseIntFromBytes_roundtrip (v : Int) (hlo : -2 ^ 63 ≤ v) (hhi : v < 2 ^ 63)
    (upper : Bool) :
    ParseIntFromBytes (renderInt 10 upper v) 10 = (v, none) ∧
    ParseIntFromBytes (renderInt 16 upper v) 16 = (v, none) ∧
    (0 ≤ v → ParseIntFromBytes (43 :: renderInt 10 upper v) 10 = (v, none) ∧
      ParseIntFromBytes (43 :: renderInt 16 upper v) 16 = (v, none)) := by
  have h10 := ParseIntFromBytes_renderInt 10 (Or.inl rfl) upper v hlo hhi
  have h16 := ParseIntFromBytes_renderInt 16 (Or.inr rfl) upper v hlo hhi
  exact ⟨h10.1, h16.1, fun h => ⟨h10.2 h, h16.2 h⟩⟩

theorem ParseIntFromBytes_roundtrip_witness :
    renderInt 10 false (-255) = bytesOf "-255" ∧
    renderInt 16 false (-255) = bytesOf "-ff" ∧
    ParseIntFromBytes (renderInt 10 false (-255)) 10 = (-255, none) ∧
    ParseIntFromBytes (renderInt 16 false (-255)) 16 = (-255, none) :=
  ⟨by simp [renderInt, natDigits, digitByte, bytesOf]; decide,
   by simp [renderInt, natDigits, digitByte, bytesOf]; decide,
   (ParseIntFromBytes_roundtrip (-255) (by decide) (by decide) false).1,
   (ParseIntFromBytes_roundtrip (-255) (by decide) (by decide) false).2.1⟩

/-- C9: `ParseIntFromBytes` returns no error on the one-byte input `0x80`,
which is not an ASCII digit, and on the input `+`, which has no digit; in both
cases the result is 0 with a nil error. -/
theorem ParseIntFromBytes_accepts_non_digits :
    ParseIntFromBytes [128] 10 = (0, none) ∧
    ParseIntFromBytes [128] 16 = (0, none) ∧
    ParseIntFromBytes (bytesOf "+") 10 = (0, none) ∧
    ParseIntFromBytes (bytesOf "-") 16 = (0, none) := by
  decide

/-! ## util.go: `FieldsN` -/

theorem take_set_succ (l : List Bytes) (x : Bytes) :
    ∀ (k : Nat), k < l.length → (l.set k x).take (k + 1) = l.take k ++ [x] := by
  induction l with
  | nil => intro k h; simp at h
  | cons a l ih =>
    intro k h
    cases k with
    | zero => simp
    | succ k =>
      simp only [List.set_cons_succ, List.take_succ_cons, List.cons_append]
      rw [ih k (by simpa using h)]

theorem take_set_self (l : List Bytes) (x : Bytes) :
    ∀ (k : Nat), (l.set k x).take k = l.take k := by
  induction l with
  | nil => intro k; simp
  | cons a l ih =>
    intro k
    cases k with
    | zero => simp
    | succ k => simp only [List.set_cons_succ, List.take_succ_cons, ih k]

theorem FieldsN_loop_inv (s : Bytes) (n : Int) :
    ∀ (rest : Bytes) (i : Nat) (na fs : Int) (res : List Bytes),
      i + rest.length = s.length → (0 ≤ fs → fs < i) → FieldsInv n na res →
      ∃ na' fs' res', FieldsN.loop s n rest i na fs res = some (na', fs', res') ∧
        FieldsInv n na' res' := by
  intro rest
  induction rest with
  | nil =>
    intro i na fs res _ _ hinv
    exact ⟨na, fs, res, rfl, hinv⟩
  | cons c rest ih =>
    intro i na fs res hi hfs hinv
    obtain ⟨hlen, hna0, hna1, hall⟩ := hinv
    simp only [List.length_cons] at hi
    simp only [FieldsN.loop]
    generalize (decide (c = 32) || decide (c = 9)) = issep
    cases issep with
    | true =>
      -- a separator: `fieldStart` is not set here
      have e1 : (if fs < 0 ∧ true = false then (i : Int) else fs) = fs := by simp
      rw [e1]
      by_cases hge : fs ≥ 0
      · have hc : fs ≥ 0 ∧ true = true := ⟨hge, rfl⟩
        rw [if_pos hc]
        have hfsi := hfs hge
        by_cases hbrk : na = n - 1
        · rw [if_pos hbrk]
          exact ⟨na, fs, res, rfl, hlen, hna0, hna1, hall⟩
        · rw [if_neg hbrk]
          have hslot : 0 ≤ na ∧ na < (res.length : Int) := by
            rw [hlen]; omega
          simp only [setSlot, if_pos hslot]
          apply ih (i + 1) (na + 1) (-1) _ (by omega) (by intro h; omega)
          refine ⟨by simp [hlen], by omega, by omega, ?_⟩
          have hk : na.toNat < res.length := by omega
          have e : (na + 1).toNat = na.toNat + 1 := by omega
          rw [e, take_set_succ res _ na.toNat hk]
          intro f hf
          rcases List.mem_append.mp hf with hf | hf
          · exact hall f hf
          · simp only [List.mem_singleton] at hf
            rw [hf]
            intro hnil
            have := congrArg List.length hnil
            simp [slice] at this
            omega
      · have hc : ¬ (fs ≥ 0 ∧ true = true) := fun h => hge h.1
        rw [if_neg hc]
        exact ih (i + 1) na fs res (by omega) (by intro h; omega) ⟨hlen, hna0, hna1, hall⟩
    | false =>
      have hc : ∀ x : Int, ¬ (x ≥ 0 ∧ false = true) := fun _ h => by simp at h
      rw [if_neg (hc _)]
      apply ih (i + 1) na _ res (by omega) _ ⟨hlen, hna0, hna1, hall⟩
      intro h
      split_ifs with h2
      · omega
      · rw [if_neg h2] at h
        have := hfs h
        omega

/-- `FieldsN` never panics: for `n > 0` it returns at most `n` fields, none of
them empty. -/
theorem FieldsN_fields (s : Bytes) (n : Int) (hn : 0 < n) :
    ∃ fs, FieldsN s n = FieldsResult.fields fs ∧ (fs.length : Int) ≤ n ∧ ∀ f ∈ fs, f ≠ [] := by
  have hinit : FieldsInv n 0 (List.replicate n.toNat []) :=
    ⟨by simp, le_refl _, by omega, by simp⟩
  obtain ⟨na, fs, res, hloop, hlen, hna0, hna1, hall⟩ :=
    FieldsN_loop_inv s n s 0 0 (-1) _ (by simp) (by intro h; omega) hinit
  unfold FieldsN
  rw [if_neg (by omega)]
  simp only [hloop]
  by_cases hfs : fs ≥ 0
  · rw [if_pos hfs]
    have hslot : 0 ≤ na ∧ na < (res.length : Int) := by
      rw [hlen]; omega
    simp only [setSlot, if_pos hslot]
    have hk : na.toNat < res.length := by omega
    by_cases ht : (TrimSpace (s.drop fs.toNat)).length ≠ 0
    · rw [if_pos ht]
      have e : (na + 1).toNat = na.toNat + 1 := by omega
      rw [e, take_set_succ res _ na.toNat hk]
      refine ⟨_, rfl, ?_, ?_⟩
      · simp only [List.length_append, List.length_take, List.length_singleton]
        omega
      · intro f hf
        rcases List.mem_append.mp hf with hf | hf
        · exact hall f hf
        · simp only [List.mem_singleton] at hf
          rw [hf]
          intro hnil
          rw [hnil] at ht
          exact ht rfl
    · rw [if_neg ht, take_set_self]
      refine ⟨_, rfl, ?_, hall⟩
      rw [List.length_take, hlen]
      omega
  · rw [if_neg hfs]
    refine ⟨_, rfl, ?_, hall⟩
    rw [List.length_take, hlen]
    omega

/-- C10: `FieldsN` returns nil when `n ≤ 0`; when `n > 0` it returns at most
`n` fields, each of them non-empty. -/
theorem FieldsN_at_most_n (s : Bytes) (n : Int) :
    (n ≤ 0 → FieldsN s n = FieldsResult.nil) ∧
    (0 < n → ∃ fs, FieldsN s n = FieldsResult.fields fs ∧ (fs.length : Int) ≤ n ∧
      ∀ f ∈ fs, f ≠ []) := by
  refine ⟨?_, FieldsN_fields s n⟩
  intro h
  unfold FieldsN
  rw [if_pos h]

theorem FieldsN_at_most_n_witness :
    FieldsN (bytesOf "HTTP/1.1 200 OK fine  ") 3 =
      FieldsResult.fields [bytesOf "HTTP/1.1", bytesOf "200", bytesOf "OK fine"] ∧
    FieldsN (bytesOf "a b") (-1) = FieldsResult.nil ∧
    ∃ fs, FieldsN (bytesOf "HTTP/1.1 200 OK fine  ") 3 = FieldsResult.fields fs ∧
      (fs.length : Int) ≤ 3 ∧ ∀ f ∈ fs, f ≠ [] :=
  ⟨by decide, (FieldsN_at_most_n (bytesOf "a b") (-1)).1 (by decide),
   (FieldsN_at_most_n (bytesOf "HTTP/1.1 200 OK fine  ") 3).2 (by decide)⟩

/-! ## util.go: `NewNbitIPv4Mask` -/

theorem NewNbitIPv4Mask_fin :
    ∀ k : Fin 33, ∃ mask, NewNbitIPv4Mask (Int.ofNat k.val) = some mask ∧ mask.length = 4 ∧
      bigEndian mask = 2 ^ 32 - 2 ^ (32 - k.val) := by
  intro k
  refine ⟨NewNbitIPv4Mask.loop [0, 1, 2, 3] (Int.ofNat k.val) [0, 0, 0, 0], ?_, ?_, ?_⟩
  · revert k; decide
  · revert k; decide
  · revert k; decide

/-- C13: for `0 ≤ n ≤ 32`, `NewNbitIPv4Mask n` returns a 4-byte mask which, read
as a big-endian number, is `2^32 - 2^(32-n)`; for `n > 32` it panics. -/
theorem NewNbitIPv4Mask_highest_bits (n : Int) :
    (0 ≤ n → n ≤ 32 → ∃ mask, NewNbitIPv4Mask n = some mask ∧ mask.length = 4 ∧
      bigEndian mask = 2 ^ 32 - 2 ^ (32 - n.toNat)) ∧
    (32 < n → NewNbitIPv4Mask n = none) := by
  constructor
  · intro h0 h32
    have hk : n.toNat < 33 := by omega
    have := NewNbitIPv4Mask_fin ⟨n.toNat, hk⟩
    have e : Int.ofNat n.toNat = n := by
      simp only [Int.ofNat_eq_coe]; omega
    simpa only [e] using this
  · intro h
    simp [NewNbitIPv4Mask, h]

theorem NewNbitIPv4Mask_highest_bits_witness :
    NewNbitIPv4Mask 20 = some [255, 255, 240, 0] ∧
    NewNbitIPv4Mask 33 = none ∧
    ∃ mask, NewNbitIPv4Mask 20 = some mask ∧ mask.length = 4 ∧
      bigEndian mask = 2 ^ 32 - 2 ^ (32 - (20 : Int).toNat) :=
  ⟨by decide, (NewNbitIPv4Mask_highest_bits 33).2 (by decide),
   (NewNbitIPv4Mask_highest_bits 20).1 (by decide) (by decide)⟩

/-! ## config.go: the shadowsocks option parsers -/

/-- C14: `ParseShadowMethod val` is fatal when `len(ShadowMethod)+1 >
len(ShadowSocks)`; otherwise it returns, `ShadowMethod` has the length of
`ShadowSocks`, its last entry is `val`, the entries it had before are
unchanged, and the entries inserted between them and `val` are empty strings. -/
theorem ParseShadowMethod_attaches (val : Bytes) (st : State) :
    (st.config.ShadowMethod.length + 1 > st.config.ShadowSocks.length →
      ParseShadowMethod val st =
        Except.error "must specify shadowSocks before corresponding shadowMethod") ∧
    (st.config.ShadowMethod.length + 1 ≤ st.config.ShadowSocks.length →
      ∃ st', ParseShadowMethod val st = Except.ok st' ∧
        st'.config.ShadowMethod.length = st'.config.ShadowSocks.length ∧
        st'.config.ShadowMethod =
          st.config.ShadowMethod ++
            List.replicate (st.config.ShadowSocks.length - (st.config.ShadowMethod.length + 1)) []
            ++ [val] ∧
        st'.config.ShadowMethod.getLast? = some val ∧
        st'.config.ShadowSocks = st.config.ShadowSocks ∧
        st'.config.ShadowPasswd = st.config.ShadowPasswd ∧
        st'.parentProxyCreator = st.parentProxyCreator) := by
  constructor
  · intro h
    simp [ParseShadowMethod, h]
  · intro h
    have hn : ¬ (st.config.ShadowMethod.length + 1 > st.config.ShadowSocks.length) := by omega
    have hrun : ParseShadowMethod val st = Except.ok { st with config := { st.config with
        ShadowMethod := ParseShadowMethod.loop st.config.ShadowSocks.length
          st.config.ShadowSocks.length st.config.ShadowMethod ++ [val] } } := by
      simp only [ParseShadowMethod, if_neg hn]
    refine ⟨_, hrun, ?_, ?_, ?_, rfl, rfl, rfl⟩
    · simp only [ParseShadowMethod_loop_eq _ _ _ (Nat.sub_le _ _), List.length_append,
        List.length_replicate, List.length_singleton]
      omega
    · simp only [ParseShadowMethod_loop_eq _ _ _ (Nat.sub_le _ _)]
    · simp

theorem ParseShadowMethod_attaches_witness :
    ParseShadowMethod (bytesOf "m") stateTwoParents =
      Except.error "must specify shadowSocks before corresponding shadowMethod" ∧
    ∃ st', ParseShadowMethod (bytesOf "m") stateServerWithPasswd = Except.ok st' ∧
      st'.config.ShadowMethod = [bytesOf "m"] :=
  ⟨(ParseShadowMethod_attaches (bytesOf "m") stateTwoParents).1 (by decide),
   by
    obtain ⟨st', h1, _, h3, _⟩ :=
      (ParseShadowMethod_attaches (bytesOf "m") stateServerWithPasswd).2 (by decide)
    exact ⟨st', h1, h3.trans (by decide)⟩⟩

/-- C15: `ParseShadowPasswd val` returns exactly when `len(ShadowPasswd)+1 =
len(ShadowSocks)`; it then appends `val` to `ShadowPasswd`, which gets the
length of `ShadowSocks`, and leaves `ShadowSocks` and `ShadowMethod` as they
were; in every other state it is fatal. -/
theorem ParseShadowPasswd_accepts_iff (val : Bytes) (st : State) :
    ((∃ st', ParseShadowPasswd val st = Except.ok st') ↔
      st.config.ShadowPasswd.length + 1 = st.config.ShadowSocks.length) ∧
    (st.config.ShadowPasswd.length + 1 = st.config.ShadowSocks.length →
      ∃ st', ParseShadowPasswd val st = Except.ok st' ∧
        st'.config.ShadowPasswd = st.config.ShadowPasswd ++ [val] ∧
        st'.config.ShadowPasswd.length = st'.config.ShadowSocks.length ∧
        st'.config.ShadowSocks = st.config.ShadowSocks ∧
        st'.config.ShadowMethod = st.config.ShadowMethod) ∧
    (st.config.ShadowPasswd.length + 1 ≠ st.config.ShadowSocks.length →
      ∃ msg, ParseShadowPasswd val st = Except.error msg) := by
  have hok : st.config.ShadowPasswd.length + 1 = st.config.ShadowSocks.length →
      ∃ st', ParseShadowPasswd val st = Except.ok st' ∧
        st'.config.ShadowPasswd = st.config.ShadowPasswd ++ [val] ∧
        st'.config.ShadowPasswd.length = st'.config.ShadowSocks.length ∧
        st'.config.ShadowSocks = st.config.ShadowSocks ∧
        st'.config.ShadowMethod = st.config.ShadowMethod := by
    intro h
    have h1 : ¬ (st.config.ShadowPasswd.length + 1 > st.config.ShadowSocks.length) := by omega
    have h2 : ¬ (st.config.ShadowPasswd.length + 1 < st.config.ShadowSocks.length) := by omega
    have hrun : ParseShadowPasswd val st = Except.ok { st with config := { st.config with
        ShadowPasswd := st.config.ShadowPasswd ++ [val] } } := by
      simp only [ParseShadowPasswd, if_neg h1, if_neg h2]
    refine ⟨_, hrun, rfl, ?_, rfl, rfl⟩
    simp only [List.length_append, List.length_singleton]
    exact h
  have herr : st.config.ShadowPasswd.length + 1 ≠ st.config.ShadowSocks.length →
      ∃ msg, ParseShadowPasswd val st = Except.error msg := by
    intro h
    by_cases h1 : st.config.ShadowPasswd.length + 1 > st.config.ShadowSocks.length
    · exact ⟨"must specify shadowSocks before corresponding shadowPasswd",
        by simp only [ParseShadowPasswd, if_pos h1]⟩
    · have h2 : st.config.ShadowPasswd.length + 1 < st.config.ShadowSocks.length := by omega
      exact ⟨"must specify shadowPasswd for every shadowSocks",
        by simp only [ParseShadowPasswd, if_neg h1, if_pos h2]⟩
  refine ⟨⟨?_, fun h => ?_⟩, hok, herr⟩
  · rintro ⟨st', h⟩
    by_contra hne
    obtain ⟨msg, hmsg⟩ := herr hne
    rw [hmsg] at h
    cases h
  · obtain ⟨st', h', _⟩ := hok h
    exact ⟨st', h'⟩

theorem ParseShadowPasswd_accepts_iff_witness :
    (∃ st', ParseShadowPasswd (bytesOf "p") stateOneServer = Except.ok st' ∧
      st'.config.ShadowPasswd = [bytesOf "p"]) ∧
    ∃ msg, ParseShadowPasswd (bytesOf "q") stateServerWithPasswd = Except.error msg :=
  ⟨by
    obtain ⟨st', h1, h2, _⟩ :=
      (ParseShadowPasswd_accepts_iff (bytesOf "p") stateOneServer).2.1 (by decide)
    exact ⟨st', h1, h2.trans (by decide)⟩,
   (ParseShadowPasswd_accepts_iff (bytesOf "q") stateServerWithPasswd).2.2 (by decide)⟩

theorem shadowIndices_append (l m : List ProxyCreator) :
    shadowIndices (l ++ m) = shadowIndices l ++ shadowIndices m := by
  induction l with
  | nil => rfl
  | cons c l ih => cases c <;> simp [shadowIndices, ih]

/-- What a call that returns does to `parentProxyCreator` and `ShadowSocks`:
it leaves both alone, or registers a creator that is not a shadowsocks one, or
registers the shadowsocks creator of the next slot together with its server. -/
theorem ConfigCall_run_creators (splitHostPort : Bytes → Bytes × Bytes) (c : ConfigCall)
    (st st' : State) (h : c.run splitHostPort st = Except.ok st') :
    (st'.parentProxyCreator = st.parentProxyCreator ∧
      st'.config.ShadowSocks = st.config.ShadowSocks) ∨
    (∃ x, shadowIndices [x] = [] ∧ st'.parentProxyCreator = st.parentProxyCreator ++ [x] ∧
      st'.config.ShadowSocks = st.config.ShadowSocks) ∨
    (∃ val, c = ConfigCall.shadowSocks val ∧
      st'.parentProxyCreator = st.parentProxyCreator ++
        [ProxyCreator.createShadowSocksConnecter st.config.ShadowSocks.length] ∧
      st'.config.ShadowSocks = st.config.ShadowSocks ++ [val]) := by
  cases c with
  | socksParent val =>
    simp only [ConfigCall.run, ParseSocksParent] at h
    split_ifs at h
    injection h with h
    subst h
    exact Or.inr (Or.inl ⟨ProxyCreator.createctSocksConnection, rfl, rfl, rfl⟩)
  | httpParent val =>
    simp only [ConfigCall.run, ParseHttpParent] at h
    split_ifs at h
    injection h with h
    subst h
    exact Or.inr (Or.inl ⟨ProxyCreator.createHttpProxyConnection, rfl, rfl, rfl⟩)
  | loadBalance val =>
    simp only [ConfigCall.run, ParseLoadBalance] at h
    split_ifs at h <;> (injection h with h; subst h; exact Or.inl ⟨rfl, rfl⟩)
  | shadowSocks val =>
    simp only [ConfigCall.run, ParseShadowSocks] at h
    split_ifs at h
    injection h with h
    subst h
    exact Or.inr (Or.inr ⟨val, rfl, rfl, rfl⟩)
  | shadowPasswd val =>
    simp only [ConfigCall.run, ParseShadowPasswd] at h
    split_ifs at h
    injection h with h
    subst h
    exact Or.inl ⟨rfl, rfl⟩
  | shadowMethod val =>
    simp only [ConfigCall.run, ParseShadowMethod] at h
    split_ifs at h
    injection h with h
    subst h
    exact Or.inl ⟨rfl, rfl⟩
  | check =>
    simp only [ConfigCall.run] at h
    obtain ⟨_, h2, _, _, h5, _⟩ := checkConfig_ok st st' h
    exact Or.inl ⟨h5, h2⟩

theorem runConfig_shadowIndices (splitHostPort : Bytes → Bytes × Bytes) :
    ∀ (calls : List ConfigCall) (st st' : State),
      shadowIndices st.parentProxyCreator = List.range st.config.ShadowSocks.length →
      runConfig splitHostPort calls st = Except.ok st' →
      shadowIndices st'.parentProxyCreator = List.range st'.config.ShadowSocks.length := by
  intro calls
  induction calls with
  | nil =>
    intro st st' hinv hrun
    simp only [runConfig] at hrun
    injection hrun with hrun
    subst hrun
    exact hinv
  | cons c cs ih =>
    intro st st' hinv hrun
    simp only [runConfig] at hrun
    cases hc : c.run splitHostPort st with
    | error msg => rw [hc] at hrun; cases hrun
    | ok st1 =>
      rw [hc] at hrun
      refine ih st1 st' ?_ hrun
      rcases ConfigCall_run_creators splitHostPort c st st1 hc with
        ⟨h1, h2⟩ | ⟨x, hx, h1, h2⟩ | ⟨val, _, h1, h2⟩
      · rw [h1, h2]; exact hinv
      · rw [h1, h2, shadowIndices_append, hx, hinv]; simp
      · rw [h1, h2, shadowIndices_append, hinv]
        simp [shadowIndices, List.range_succ]

/-- C16: a `ParseShadowSocks val` call that returns appends `val` to
`ShadowSocks` and one creator to the end of `parentProxyCreator`, built with
the index at which `ShadowSocks` holds `val` after the call; in every state
reached from the initial one the shadowsocks creators carry the indices
0, 1, 2, ... in the order of registration, and every call that returns keeps
the creators registered before it, in their order, at the front. -/
theorem ParseShadowSocks_slot_index (splitHostPort : Bytes → Bytes × Bytes) :
    (∀ (val : Bytes) (st st' : State),
      ParseShadowSocks splitHostPort val st = Except.ok st' →
        st'.config.ShadowSocks = st.config.ShadowSocks ++ [val] ∧
        st'.parentProxyCreator = st.parentProxyCreator ++
          [ProxyCreator.createShadowSocksConnecter st.config.ShadowSocks.length] ∧
        st'.config.ShadowSocks[st.config.ShadowSocks.length]? = some val) ∧
    (∀ (calls : List ConfigCall) (st : State),
      runConfig splitHostPort calls State.init = Except.ok st →
        shadowIndices st.parentProxyCreator = List.range st.config.ShadowSocks.length) ∧
    (∀ (c : ConfigCall) (st st' : State),
      c.run splitHostPort st = Except.ok st' →
        st.parentProxyCreator <+: st'.parentProxyCreator) := by
  refine ⟨?_, ?_, ?_⟩
  · intro val st st' h
    rcases ConfigCall_run_creators splitHostPort (ConfigCall.shadowSocks val) st st' h with
      ⟨h1, h2⟩ | ⟨x, hx, h1, h2⟩ | ⟨v, hv, h1, h2⟩
    · simp only [ParseShadowSocks] at h
      split_ifs at h
      injection h with h
      subst h
      simp at h2
    · simp only [ParseShadowSocks] at h
      split_ifs at h
      injection h with h
      subst h
      simp at h2
    · injection hv with hv
      subst hv
      refine ⟨h2, h1, ?_⟩
      rw [h2]
      simp
  · intro calls st h
    exact runConfig_shadowIndices splitHostPort calls State.init st rfl h
  · intro c st st' h
    rcases ConfigCall_run_creators splitHostPort c st st' h with
      ⟨h1, _⟩ | ⟨x, _, h1, _⟩ | ⟨v, _, h1, _⟩
    · rw [h1]
    · rw [h1]; exact List.prefix_append _ _
    · rw [h1]; exact List.prefix_append _ _

theorem ParseShadowSocks_slot_index_witness :
    runConfig splitHostPortAlways callsMixedParents State.init = Except.ok stateMixedParents ∧
    shadowIndices stateMixedParents.parentProxyCreator = [0, 1] ∧
    stateMixedParents.config.ShadowSocks = [bytesOf "a:1", bytesOf "b:1"] :=
  ⟨rfl,
   ((ParseShadowSocks_slot_index splitHostPortAlways).2.1 callsMixedParents stateMixedParents
      rfl).trans (by decide),
   rfl⟩

/-! ## util.go: `FieldsN` and the tokens -/

theorem FieldsN_eq_finish (s : Bytes) (n : Int) (hn : 0 < n) :
    FieldsN s n =
      match FieldsN.loop s n s 0 0 (-1) (List.replicate n.toNat []) with
      | none => FieldsResult.panicked
      | some (na, fs, res) => fieldsFinish s na fs res := by
  unfold FieldsN
  rw [if_neg (by omega)]
  rfl

theorem fieldsFinish_none (s : Bytes) (na fs : Int) (res : List Bytes) (hfs : fs < 0) :
    fieldsFinish s na fs res = FieldsResult.fields (res.take na.toNat) := by
  unfold fieldsFinish
  rw [if_neg (by omega)]

theorem fieldsFinish_pending (s : Bytes) (n na fs : Int) (res : List Bytes) (t : Bytes)
    (hlen : res.length = n.toNat) (hna0 : 0 ≤ na) (hna1 : na ≤ n - 1) (hfs : 0 ≤ fs)
    (ht : s.drop fs.toNat = t) :
    fieldsFinish s na fs res = FieldsResult.fields (res.take na.toNat ++ lastField t) := by
  unfold fieldsFinish lastField
  have hge : fs ≥ 0 := hfs
  rw [if_pos hge, ht]
  have hslot : 0 ≤ na ∧ na < (res.length : Int) := by
    rw [hlen]; omega
  simp only [setSlot, if_pos hslot]
  have hk : na.toNat < res.length := by omega
  by_cases hl : (TrimSpace t).length ≠ 0
  · rw [if_pos hl, if_pos hl]
    have e : (na + 1).toNat = na.toNat + 1 := by omega
    rw [e, take_set_succ res _ na.toNat hk]
  · rw [if_neg hl, if_neg hl, take_set_self]
    simp

theorem FieldsN_loop_cons_sep (s : Bytes) (n : Int) (c : Byte) (rest : Bytes) (i : Nat)
    (na fs : Int) (res : List Bytes) (hsep : isSep c = true) :
    FieldsN.loop s n (c :: rest) i na fs res =
      if fs ≥ 0 then
        if na = n - 1 then some (na, fs, res)
        else
          match setSlot res na (slice s fs.toNat i) with
          | none => none
          | some res => FieldsN.loop s n rest (i + 1) (na + 1) (-1) res
      else FieldsN.loop s n rest (i + 1) na fs res := by
  have hb : (decide (c = 32) || decide (c = 9)) = true := hsep
  simp only [FieldsN.loop, hb]
  simp

theorem FieldsN_loop_cons_tok (s : Bytes) (n : Int) (c : Byte) (rest : Bytes) (i : Nat)
    (na fs : Int) (res : List Bytes) (hsep : isSep c = false) :
    FieldsN.loop s n (c :: rest) i na fs res =
      FieldsN.loop s n rest (i + 1) na (if fs < 0 then (i : Int) else fs) res := by
  have hb : (decide (c = 32) || decide (c = 9)) = false := hsep
  simp only [FieldsN.loop, hb]
  simp

theorem fieldsSpec_cons_sep (room : Nat) (c : Byte) (rest cur : Bytes) (hsep : isSep c = true) :
    fieldsSpec room (c :: rest) cur =
      if cur = [] then fieldsSpec room rest []
      else
        match room with
        | 0 => lastField (cur ++ c :: rest)
        | room + 1 => cur :: fieldsSpec room rest [] := by
  simp only [fieldsSpec, hsep, if_true]

theorem fieldsSpec_cons_tok (room : Nat) (c : Byte) (rest cur : Bytes)
    (hsep : isSep c = false) :
    fieldsSpec room (c :: rest) cur = fieldsSpec room rest (cur ++ [c]) := by
  simp only [fieldsSpec, hsep, Bool.false_eq_true, if_false]

/-- The loop of `FieldsN` followed by the end of `FieldsN` returns the fields
recorded so far followed by those of `fieldsSpec`. -/
theorem FieldsN_loop_spec (s : Bytes) (n : Int) :
    ∀ (rest : Bytes) (i : Nat) (na fs : Int) (res : List Bytes) (cur : Bytes),
      s.drop i = rest → res.length = n.toNat → 0 ≤ na → na ≤ n - 1 →
      ((cur = [] ∧ fs < 0) ∨
        (cur ≠ [] ∧ 0 ≤ fs ∧ fs.toNat + cur.length = i ∧ s.drop fs.toNat = cur ++ rest)) →
      ∃ na' fs' res', FieldsN.loop s n rest i na fs res = some (na', fs', res') ∧
        fieldsFinish s na' fs' res' =
          FieldsResult.fields (res.take na.toNat ++ fieldsSpec (n - 1 - na).toNat rest cur) := by
  intro rest
  induction rest with
  | nil =>
    intro i na fs res cur hdrop hlen hna0 hna1 hlink
    refine ⟨na, fs, res, rfl, ?_⟩
    rcases hlink with ⟨hc, hfs⟩ | ⟨hc, hfs, _, hd⟩
    · rw [fieldsFinish_none s na fs res hfs]
      simp [fieldsSpec, hc]
    · rw [fieldsFinish_pending s n na fs res _ hlen hna0 hna1 hfs hd]
      simp [fieldsSpec, hc]
  | cons c rest ih =>
    intro i na fs res cur hdrop hlen hna0 hna1 hlink
    have hdrop' : s.drop (i + 1) = rest := by
      rw [← List.tail_drop, hdrop]; rfl
    cases hsep : isSep c with
    | true =>
      rw [FieldsN_loop_cons_sep s n c rest i na fs res hsep,
        fieldsSpec_cons_sep _ c rest cur hsep]
      rcases hlink with ⟨hc, hfs⟩ | ⟨hc, hfs, hi, hd⟩
      · have hcond : ¬ (fs ≥ 0) := by omega
        rw [if_neg hcond, if_pos hc]
        exact ih (i + 1) na fs res [] hdrop' hlen hna0 hna1 (Or.inl ⟨rfl, hfs⟩)
      · have hcond : fs ≥ 0 := hfs
        rw [if_pos hcond, if_neg hc]
        by_cases hbrk : na = n - 1
        · rw [if_pos hbrk]
          have hroom : (n - 1 - na).toNat = 0 := by omega
          rw [hroom]
          exact ⟨na, fs, res, rfl,
            fieldsFinish_pending s n na fs res _ hlen hna0 hna1 hfs hd⟩
        · rw [if_neg hbrk]
          have hslot : 0 ≤ na ∧ na < (res.length : Int) := by
            rw [hlen]; omega
          have hsl : slice s fs.toNat i = cur := by
            have e : i - fs.toNat = cur.length := by omega
            rw [slice, hd, e, List.take_left']
            rfl
          simp only [setSlot, if_pos hslot, hsl]
          obtain ⟨room, hroom⟩ : ∃ room, (n - 1 - na).toNat = room + 1 :=
            ⟨(n - 1 - na).toNat - 1, by omega⟩
          rw [hroom]
          obtain ⟨na', fs', res', h1, h2⟩ := ih (i + 1) (na + 1) (-1) (res.set na.toNat cur) []
            hdrop' (by simp [hlen]) (by omega) (by omega) (Or.inl ⟨rfl, by omega⟩)
          refine ⟨na', fs', res', h1, ?_⟩
          have hk : na.toNat < res.length := by omega
          have e2 : (na + 1).toNat = na.toNat + 1 := by omega
          have e3 : (n - 1 - (na + 1)).toNat = room := by omega
          rw [h2, e2, take_set_succ res _ na.toNat hk, e3]
          simp
    | false =>
      rw [FieldsN_loop_cons_tok s n c rest i na fs res hsep,
        fieldsSpec_cons_tok _ c rest cur hsep]
      rcases hlink with ⟨hc, hfs⟩ | ⟨hc, hfs, hi, hd⟩
      · rw [if_pos hfs, hc]
        refine ih (i + 1) na (i : Int) res ([] ++ [c]) hdrop' hlen hna0 hna1 (Or.inr ⟨by simp, ?_⟩)
        refine ⟨by omega, by simp, ?_⟩
        simp [hdrop]
      · have hcond : ¬ (fs < 0) := by omega
        rw [if_neg hcond]
        refine ih (i + 1) na fs res (cur ++ [c]) hdrop' hlen hna0 hna1 (Or.inr ⟨by simp, ?_⟩)
        refine ⟨hfs, by simp; omega, ?_⟩
        simp [hd]

/-- `FieldsN` in terms of lists. -/
theorem FieldsN_eq_fieldsSpec (s : Bytes) (n : Int) (hn : 0 < n) :
    FieldsN s n = FieldsResult.fields (fieldsSpec (n.toNat - 1) s []) := by
  obtain ⟨na, fs, res, h1, h2⟩ := FieldsN_loop_spec s n s 0 0 (-1) (List.replicate n.toNat []) []
    rfl (by simp) (le_refl _) (by omega) (Or.inl ⟨rfl, by omega⟩)
  rw [FieldsN_eq_finish s n hn, h1]
  simp only [h2]
  have e : (n - 1 - 0).toNat = n.toNat - 1 := by omega
  rw [e]
  simp

/-! ### `TrimSpace` on a sequence without CR and LF -/

theorem TrimSpace_bwd_eq : ∀ (l : Bytes) (e : Int),
    TrimSpace.bwd l e = e - ((l.takeWhile IsSpace).length : Int) := by
  intro l
  induction l with
  | nil => intro e; simp [TrimSpace.bwd]
  | cons c cs ih =>
    intro e
    by_cases hc : IsSpace c = true
    · simp only [TrimSpace.bwd, hc, if_true, List.takeWhile_cons_of_pos, List.length_cons, ih]
      push_cast
      omega
    · simp [TrimSpace.bwd, hc]

theorem dropWhile_eq_drop_takeWhile (p : Byte → Bool) : ∀ l : Bytes,
    l.dropWhile p = l.drop (l.takeWhile p).length := by
  intro l
  induction l with
  | nil => rfl
  | cons c cs ih =>
    by_cases hc : p c = true
    · simp [List.dropWhile_cons_of_pos hc, List.takeWhile_cons_of_pos hc, ih]
    · simp [List.dropWhile_cons_of_neg hc, List.takeWhile_cons_of_neg hc]

theorem takeWhile_congr_mem (p q : Byte → Bool) : ∀ l : Bytes,
    (∀ b ∈ l, p b = q b) → l.takeWhile p = l.takeWhile q := by
  intro l
  induction l with
  | nil => intro _; rfl
  | cons c cs ih =>
    intro h
    have hc := h c (List.mem_cons_self c cs)
    have hcs := ih (fun b hb => h b (List.mem_cons_of_mem c hb))
    simp only [List.takeWhile_cons, hc, hcs]

theorem IsSpace_eq_isSep (b : Byte) (h : b ≠ 13 ∧ b ≠ 10) : IsSpace b = isSep b := by
  simp only [IsSpace, spaceTbl, isSep, h.1, h.2, decide_False, Bool.or_false]
  exact Bool.or_comm _ _

/-- On a sequence that starts with a byte that is no space and holds no CR or
LF, `TrimSpace` removes the trailing spaces and tabs. -/
theorem TrimSpace_eq_trimRight (c : Byte) (cs : Bytes) (hc : isSep c = false)
    (hcr : ∀ b ∈ c :: cs, b ≠ 13 ∧ b ≠ 10) :
    TrimSpace (c :: cs) = trimRight (c :: cs) := by
  have hsp : IsSpace c = false := by
    rw [IsSpace_eq_isSep c (hcr c (List.mem_cons_self c cs))]; exact hc
  have hk : ((c :: cs).reverse.takeWhile IsSpace).length ≤ (c :: cs).reverse.length :=
    (List.takeWhile_prefix IsSpace).length_le
  have hcongr : (c :: cs).reverse.takeWhile IsSpace = (c :: cs).reverse.takeWhile isSep :=
    takeWhile_congr_mem IsSpace isSep _
      (fun b hb => IsSpace_eq_isSep b (hcr b (List.mem_reverse.mp hb)))
  have hlen0 : ¬ ((c :: cs).length = 0) := by simp
  have hfwd : TrimSpace.fwd (c :: cs) 0 = 0 := by simp [TrimSpace.fwd, hsp]
  have hst : ¬ (0 = (c :: cs).length) := by simp
  unfold TrimSpace
  rw [if_neg hlen0]
  simp only [hfwd, if_neg hst, TrimSpace_bwd_eq, slice_zero]
  rw [trimRight, List.rdropWhile, dropWhile_eq_drop_takeWhile, List.drop_reverse,
    List.reverse_reverse, ← hcongr]
  congr 1
  rw [List.length_reverse] at hk
  omega

theorem trimRight_append_seps (cur seps : Bytes) (hcur : ∀ b ∈ cur, isSep b = false)
    (hs : ∀ b ∈ seps, isSep b = true) : trimRight (cur ++ seps) = cur := by
  rw [trimRight, List.rdropWhile, List.reverse_append,
    List.dropWhile_append_of_pos (fun b hb => hs b (List.mem_reverse.mp hb))]
  cases hr : cur.reverse with
  | nil =>
    have : cur = [] := by simpa using hr
    simp [this]
  | cons x xs =>
    have hx : isSep x = false := hcur x (by
      rw [← List.mem_reverse, hr]; exact List.mem_cons_self x xs)
    have hx' : ¬ (isSep x = true) := by simp [hx]
    rw [List.dropWhile_cons_of_neg hx', ← hr, List.reverse_reverse]

/-- The last field of a rest that starts inside a token. -/
theorem lastField_eq_trimRight (cur rest : Bytes) (hne : cur ≠ [])
    (hcur : ∀ b ∈ cur, isSep b = false) (hcr : ∀ b ∈ cur ++ rest, b ≠ 13 ∧ b ≠ 10) :
    lastField (cur ++ rest) = [trimRight (cur ++ rest)] := by
  obtain ⟨c, cs, rfl⟩ := List.exists_cons_of_ne_nil hne
  have hc : isSep c = false := hcur c (List.mem_cons_self c cs)
  have e : (c :: cs) ++ rest = c :: (cs ++ rest) := rfl
  rw [e] at hcr ⊢
  have hne' : trimRight (c :: (cs ++ rest)) ≠ [] := by
    intro h
    rw [trimRight, List.rdropWhile_eq_nil_iff] at h
    have := h c (List.mem_cons_self c _)
    rw [hc] at this
    cases this
  unfold lastField
  rw [TrimSpace_eq_trimRight c (cs ++ rest) hc hcr]
  have hl : (trimRight (c :: (cs ++ rest))).length ≠ 0 := by
    intro h; exact hne' (List.length_eq_zero.mp h)
  rw [if_pos hl]

/-! ### `fieldsSpec` and the tokens -/

theorem tokensFrom_cons_sep (c : Byte) (rest cur : Bytes) (hsep : isSep c = true) :
    tokensFrom (c :: rest) cur =
      if cur = [] then tokensFrom rest [] else cur :: tokensFrom rest [] := by
  simp only [tokensFrom, hsep, if_true]

theorem tokensFrom_cons_tok (c : Byte) (rest cur : Bytes) (hsep : isSep c = false) :
    tokensFrom (c :: rest) cur = tokensFrom rest (cur ++ [c]) := by
  simp only [tokensFrom, hsep, Bool.false_eq_true, if_false]

theorem tokensFrom_ne_nil : ∀ (rest cur : Bytes), cur ≠ [] → tokensFrom rest cur ≠ [] := by
  intro rest
  induction rest with
  | nil => intro cur h; simp [tokensFrom, h]
  | cons c rest ih =>
    intro cur h
    cases hsep : isSep c with
    | true => rw [tokensFrom_cons_sep c rest cur hsep, if_neg h]; simp
    | false =>
      rw [tokensFrom_cons_tok c rest cur hsep]
      exact ih (cur ++ [c]) (by simp)

theorem all_sep_of_tokensFrom_nil : ∀ (rest : Bytes), tokensFrom rest [] = [] →
    ∀ b ∈ rest, isSep b = true := by
  intro rest
  induction rest with
  | nil => intro _ b hb; cases hb
  | cons c rest ih =>
    intro h b hb
    cases hsep : isSep c with
    | true =>
      rw [tokensFrom_cons_sep c rest [] hsep, if_pos rfl] at h
      rcases List.mem_cons.mp hb with hb | hb
      · rw [hb]; exact hsep
      · exact ih h b hb
    | false =>
      rw [tokensFrom_cons_tok c rest [] hsep] at h
      exact absurd h (tokensFrom_ne_nil rest ([] ++ [c]) (by simp))

theorem dropWhile_sep_append (cur rest : Bytes) (hne : cur ≠ [])
    (hcur : ∀ b ∈ cur, isSep b = false) :
    (cur ++ rest).dropWhile isSep = cur ++ rest := by
  obtain ⟨c, cs, rfl⟩ := List.exists_cons_of_ne_nil hne
  have hc : ¬ (isSep c = true) := by
    simp [hcur c (List.mem_cons_self c cs)]
  exact List.dropWhile_cons_of_neg hc

theorem dropTokens_cons_sep (k : Nat) (c : Byte) (rest : Bytes) (hsep : isSep c = true) :
    dropTokens k (c :: rest) = dropTokens k rest := by
  cases k with
  | zero => simp only [dropTokens, List.dropWhile_cons_of_pos hsep]
  | succ k => simp only [dropTokens, List.dropWhile_cons_of_pos hsep]

theorem dropTokens_succ_append (k : Nat) (cur : Bytes) (c : Byte) (rest : Bytes)
    (hne : cur ≠ []) (hcur : ∀ b ∈ cur, isSep b = false) (hsep : isSep c = true) :
    dropTokens (k + 1) (cur ++ c :: rest) = dropTokens k rest := by
  have h1 : (cur ++ c :: rest).dropWhile isSep = cur ++ c :: rest :=
    dropWhile_sep_append cur (c :: rest) hne hcur
  have h2 : (cur ++ c :: rest).dropWhile (fun b => !isSep b) = c :: rest := by
    rw [List.dropWhile_append_of_pos (fun b hb => by simp [hcur b hb])]
    exact List.dropWhile_cons_of_neg (by simp [hsep])
  rw [dropTokens, h1, h2, dropTokens_cons_sep k c rest hsep]

/-- With room for every token, `fieldsSpec` gives the tokens. -/
theorem fieldsSpec_eq_tokens : ∀ (rest : Bytes) (room : Nat) (cur : Bytes),
    (∀ b ∈ cur, isSep b = false) → (∀ b ∈ cur ++ rest, b ≠ 13 ∧ b ≠ 10) →
    (tokensFrom rest cur).length ≤ room + 1 →
    fieldsSpec room rest cur = tokensFrom rest cur := by
  intro rest
  induction rest with
  | nil =>
    intro room cur hcur hcr _
    by_cases hc : cur = []
    · simp [fieldsSpec, tokensFrom, hc]
    · have h := lastField_eq_trimRight cur [] hc hcur hcr
      rw [List.append_nil, ← List.append_nil cur,
        trimRight_append_seps cur [] hcur (fun b hb => by cases hb), List.append_nil] at h
      simp [fieldsSpec, tokensFrom, hc, h]
  | cons c rest ih =>
    intro room cur hcur hcr hlen
    cases hsep : isSep c with
    | true =>
      rw [fieldsSpec_cons_sep room c rest cur hsep, tokensFrom_cons_sep c rest cur hsep]
      rw [tokensFrom_cons_sep c rest cur hsep] at hlen
      have hcr' : ∀ b ∈ ([] : Bytes) ++ rest, b ≠ 13 ∧ b ≠ 10 := fun b hb =>
        hcr b (List.mem_append_right cur (List.mem_cons_of_mem c (by simpa using hb)))
      by_cases hc : cur = []
      · rw [if_pos hc] at hlen ⊢
        rw [if_pos hc]
        exact ih room [] (fun b hb => by cases hb) hcr' hlen
      · rw [if_neg hc] at hlen ⊢
        rw [if_neg hc]
        cases room with
        | zero =>
          have hnil : tokensFrom rest [] = [] := by
            simp only [List.length_cons] at hlen
            exact List.length_eq_zero.mp (by omega)
          have hall := all_sep_of_tokensFrom_nil rest hnil
          have hseps : ∀ b ∈ c :: rest, isSep b = true := by
            intro b hb
            rcases List.mem_cons.mp hb with hb | hb
            · rw [hb]; exact hsep
            · exact hall b hb
          simp only [lastField_eq_trimRight cur (c :: rest) hc hcur hcr,
            trimRight_append_seps cur (c :: rest) hcur hseps, hnil]
        | succ room =>
          simp only [List.length_cons] at hlen
          simp only [ih room [] (fun b hb => by cases hb) hcr' (by omega)]
    | false =>
      rw [fieldsSpec_cons_tok room c rest cur hsep, tokensFrom_cons_tok c rest cur hsep]
      rw [tokensFrom_cons_tok c rest cur hsep] at hlen
      refine ih room (cur ++ [c]) ?_ ?_ hlen
      · intro b hb
        rcases List.mem_append.mp hb with hb | hb
        · exact hcur b hb
        · simp only [List.mem_singleton] at hb
          rw [hb]; exact hsep
      · intro b hb
        exact hcr b (by simpa using hb)

/-- With more tokens than room, `fieldsSpec` gives the first `room` tokens
and then all that is left, trailing separators removed. -/
theorem fieldsSpec_eq_rest : ∀ (rest : Bytes) (room : Nat) (cur : Bytes),
    (∀ b ∈ cur, isSep b = false) → (∀ b ∈ cur ++ rest, b ≠ 13 ∧ b ≠ 10) →
    room + 1 < (tokensFrom rest cur).length →
    fieldsSpec room rest cur =
      (tokensFrom rest cur).take room ++ [trimRight (dropTokens room (cur ++ rest))] := by
  intro rest
  induction rest with
  | nil =>
    intro room cur _ _ hlen
    by_cases hc : cur = [] <;> simp [tokensFrom, hc] at hlen
  | cons c rest ih =>
    intro room cur hcur hcr hlen
    cases hsep : isSep c with
    | true =>
      rw [fieldsSpec_cons_sep room c rest cur hsep, tokensFrom_cons_sep c rest cur hsep]
      rw [tokensFrom_cons_sep c rest cur hsep] at hlen
      have hcr' : ∀ b ∈ ([] : Bytes) ++ rest, b ≠ 13 ∧ b ≠ 10 := fun b hb =>
        hcr b (List.mem_append_right cur (List.mem_cons_of_mem c (by simpa using hb)))
      by_cases hc : cur = []
      · rw [if_pos hc] at hlen ⊢
        rw [if_pos hc, ih room [] (fun b hb => by cases hb) hcr' hlen, hc]
        simp only [List.nil_append, dropTokens_cons_sep room c rest hsep]
      · rw [if_neg hc] at hlen ⊢
        rw [if_neg hc]
        cases room with
        | zero =>
          simp only [lastField_eq_trimRight cur (c :: rest) hc hcur hcr, List.take_zero,
            List.nil_append, dropTokens, dropWhile_sep_append cur (c :: rest) hc hcur]
        | succ room =>
          simp only [List.length_cons] at hlen
          simp only [ih room [] (fun b hb => by cases hb) hcr' (by omega),
            List.take_succ_cons, List.cons_append, List.nil_append,
            dropTokens_succ_append room cur c rest hc hcur hsep]
    | false =>
      rw [fieldsSpec_cons_tok room c rest cur hsep, tokensFrom_cons_tok c rest cur hsep]
      rw [tokensFrom_cons_tok c rest cur hsep] at hlen
      have e : cur ++ c :: rest = (cur ++ [c]) ++ rest := by simp
      rw [e]
      refine ih room (cur ++ [c]) ?_ ?_ hlen
      · intro b hb
        rcases List.mem_append.mp hb with hb | hb
        · exact hcur b hb
        · simp only [List.mem_singleton] at hb
          rw [hb]; exact hsep
      · intro b hb
        exact hcr b (by simpa using hb)

theorem tokensFrom_dropWhile_sep : ∀ s : Bytes,
    tokensFrom (s.dropWhile isSep) [] = tokensFrom s [] := by
  intro s
  induction s with
  | nil => rfl
  | cons c rest ih =>
    cases hsep : isSep c with
    | true =>
      rw [List.dropWhile_cons_of_pos hsep, tokensFrom_cons_sep c rest [] hsep, if_pos rfl, ih]
    | false =>
      rw [List.dropWhile_cons_of_neg (by simp [hsep])]

theorem tokensFrom_run : ∀ (s cur : Bytes), cur ≠ [] →
    tokensFrom s cur =
      (cur ++ s.takeWhile (fun b => !isSep b)) ::
        tokensFrom (s.dropWhile (fun b => !isSep b)) [] := by
  intro s
  induction s with
  | nil => intro cur h; simp [tokensFrom, h]
  | cons c rest ih =>
    intro cur h
    cases hsep : isSep c with
    | true =>
      have ht : (c :: rest).takeWhile (fun b => !isSep b) = [] := by
        simp [List.takeWhile_cons, hsep]
      have hd : (c :: rest).dropWhile (fun b => !isSep b) = c :: rest := by
        simp [List.dropWhile_cons, hsep]
      rw [tokensFrom_cons_sep c rest cur hsep, if_neg h, ht, hd,
        tokensFrom_cons_sep c rest [] hsep, if_pos rfl]
      simp
    | false =>
      have ht : (c :: rest).takeWhile (fun b => !isSep b) =
          c :: rest.takeWhile (fun b => !isSep b) := by
        simp [List.takeWhile_cons, hsep]
      have hd : (c :: rest).dropWhile (fun b => !isSep b) =
          rest.dropWhile (fun b => !isSep b) := by
        simp [List.dropWhile_cons, hsep]
      rw [tokensFrom_cons_tok c rest cur hsep, ih (cur ++ [c]) (by simp), ht, hd]
      simp

/-- Skipping the separators in front and one token removes the first token. -/
theorem tokens_skip_one (s : Bytes) :
    tokens ((s.dropWhile isSep).dropWhile (fun b => !isSep b)) = (tokens s).drop 1 := by
  unfold tokens
  rw [← tokensFrom_dropWhile_sep s]
  cases hs : s.dropWhile isSep with
  | nil => rfl
  | cons c rest =>
    have hc : isSep c = false := by
      have h := List.head_dropWhile_not isSep s (by rw [hs]; simp)
      simpa [hs] using h
    have hd : (c :: rest).dropWhile (fun b => !isSep b) =
        rest.dropWhile (fun b => !isSep b) := by
      simp [List.dropWhile_cons, hc]
    rw [tokensFrom_cons_tok c rest [] hc, tokensFrom_run rest ([] ++ [c]) (by simp), hd]
    rfl

/-- What `dropTokens k s` is: an end part of `s` that holds the tokens of `s`
from number `k` on and, when it is not empty, starts with the first byte of a
token. -/
theorem dropTokens_spec : ∀ (k : Nat) (s : Bytes),
    dropTokens k s <:+ s ∧ tokens (dropTokens k s) = (tokens s).drop k ∧
      ∀ b, (dropTokens k s).head? = some b → isSep b = false := by
  intro k
  induction k with
  | zero =>
    intro s
    refine ⟨List.dropWhile_suffix isSep, tokensFrom_dropWhile_sep s, ?_⟩
    intro b hb
    simp only [dropTokens] at hb
    cases hs : s.dropWhile isSep with
    | nil => rw [hs] at hb; cases hb
    | cons c rest =>
      have h := List.head_dropWhile_not isSep s (by rw [hs]; simp)
      rw [hs] at hb
      simp only [List.head?_cons, Option.some.injEq] at hb
      subst hb
      simpa [hs] using h
  | succ k ih =>
    intro s
    obtain ⟨h1, h2, h3⟩ := ih ((s.dropWhile isSep).dropWhile (fun b => !isSep b))
    refine ⟨?_, ?_, h3⟩
    · exact h1.trans ((List.dropWhile_suffix _).trans (List.dropWhile_suffix isSep))
    · rw [dropTokens, h2, tokens_skip_one, List.drop_drop]
      congr 1
      omega

/-- C11: for `n > 0` and a byte sequence `s` without CR and LF whose tokens
(maximal runs of bytes other than space and tab) number at most `n`,
`FieldsN s n` is the list of those tokens in order of appearance. -/
theorem FieldsN_eq_tokens (s : Bytes) (n : Int) (hn : 0 < n)
    (hcr : ∀ b ∈ s, b ≠ 13 ∧ b ≠ 10) (hk : ((tokens s).length : Int) ≤ n) :
    FieldsN s n = FieldsResult.fields (tokens s) := by
  rw [FieldsN_eq_fieldsSpec s n hn]
  have hlen : (tokensFrom s []).length ≤ (n.toNat - 1) + 1 := by
    unfold tokens at hk
    omega
  rw [fieldsSpec_eq_tokens s (n.toNat - 1) [] (fun b hb => by cases hb)
    (fun b hb => hcr b (by simpa using hb)) hlen]
  rfl

set_option maxRecDepth 8000 in
theorem FieldsN_eq_tokens_witness :
    tokens (bytesOf " a  b\tc ") = [bytesOf "a", bytesOf "b", bytesOf "c"] ∧
    FieldsN (bytesOf " a  b\tc ") 3 = FieldsResult.fields (tokens (bytesOf " a  b\tc ")) :=
  ⟨by decide, FieldsN_eq_tokens (bytesOf " a  b\tc ") 3 (by decide) (by decide) (by decide)⟩

/-- C12: for `n > 0` and a byte sequence `s` without CR and LF that has more
than `n` tokens, `FieldsN s n` has exactly `n` fields: the first `n - 1` tokens
of `s`, and then the part of `s` from the first byte of its `n`-th token to
the end of `s`, its trailing spaces and tabs removed. -/
theorem FieldsN_rest_in_last_field (s : Bytes) (n : Int) (hn : 0 < n)
    (hcr : ∀ b ∈ s, b ≠ 13 ∧ b ≠ 10) (hk : n < ((tokens s).length : Int)) :
    FieldsN s n = FieldsResult.fields
      ((tokens s).take (n.toNat - 1) ++ [trimRight (dropTokens (n.toNat - 1) s)]) ∧
    (((tokens s).take (n.toNat - 1) ++ [trimRight (dropTokens (n.toNat - 1) s)]).length : Int)
      = n := by
  have hlen : (n.toNat - 1) + 1 < (tokensFrom s []).length := by
    unfold tokens at hk
    omega
  constructor
  · rw [FieldsN_eq_fieldsSpec s n hn,
      fieldsSpec_eq_rest s (n.toNat - 1) [] (fun b hb => by cases hb)
        (fun b hb => hcr b (by simpa using hb)) hlen]
    rfl
  · unfold tokens
    simp only [List.length_append, List.length_take, List.length_singleton]
    omega

set_option maxRecDepth 8000 in
theorem FieldsN_rest_in_last_field_witness :
    tokens (bytesOf "HTTP/1.1 200  OK\tfine  ") =
      [bytesOf "HTTP/1.1", bytesOf "200", bytesOf "OK", bytesOf "fine"] ∧
    trimRight (dropTokens 2 (bytesOf "HTTP/1.1 200  OK\tfine  ")) = bytesOf "OK\tfine" ∧
    FieldsN (bytesOf "HTTP/1.1 200  OK\tfine  ") 3 = FieldsResult.fields
      ((tokens (bytesOf "HTTP/1.1 200  OK\tfine  ")).take ((3 : Int).toNat - 1) ++
        [trimRight (dropTokens ((3 : Int).toNat - 1) (bytesOf "HTTP/1.1 200  OK\tfine  "))]) :=
  ⟨by decide, by decide,
   (FieldsN_rest_in_last_field (bytesOf "HTTP/1.1 200  OK\tfine  ") 3 (by decide)
      (by decide) (by decide)).1⟩

end Cow
